import Mathlib

/-!
Verification of the semantic middle end of the capy compiler.

This development shallowly embeds the parts of the source that the
specification talks about:

* `crates/hir_ty/src/ty.rs` — the type universe `Ty` and its operations
  `can_fit_into`, `max`, `has_semantics_of`, `might_be_weak`,
  `is_equal_to`, and the unary-operator typing rules;
* `crates/hir/src/body.rs` — body lowering: label resolution, integer and
  char literal lowering, lambda/comptime scoping and the expression arena
  with its source-range map;
* `crates/capy/src/main.rs` — the driver decision of whether to run
  code generation.

Rust `u32`/`u64` values are modelled as `Nat` (overflow is explicit in the
source wherever it matters and is modelled by explicit bound checks);
interned string keys are modelled as `Nat`; `Vec` fields in the nested
type `Ty` are modelled by the mutually inductive lists `TyList` and
`FieldList` so that structural recursion is available.

Rust `match` statements with multi-scrutinee arms are translated into
nested single-scrutinee matches; each arm is annotated with the source
arm it implements, and the translation preserves the source's arm order
(first match wins).
-/

namespace Capy

mutual

/-- `Ty` from `crates/hir_ty/src/ty.rs`.  Bit-width `0` is a weak numeric
type, `u32::MAX` (= 4294967295) means pointer-sized.  `Fqn`s are modelled
as interned `Nat` keys. -/
inductive Ty where
  | NotYetResolved
  | Unknown
  | IInt (w : Nat)
  | UInt (w : Nat)
  | Float (w : Nat)
  | Bool
  | String
  | Char
  | Array (size : Nat) (subTy : Ty)
  | Pointer (mutable : Bool) (subTy : Ty)
  | Distinct (fqn : Option Nat) (uid : Nat) (ty : Ty)
  | Type
  | Any
  | File (name : Nat)
  | Function (paramTys : TyList) (returnTy : Ty)
  | Struct (fqn : Option Nat) (uid : Nat) (fields : FieldList)
  | Void
  deriving DecidableEq

/-- `Vec<Intern<Ty>>` of `Ty::Function`. -/
inductive TyList where
  | nil
  | cons (head : Ty) (tail : TyList)
  deriving DecidableEq

/-- `Vec<(hir::Name, Intern<Ty>)>` of `Ty::Struct`. -/
inductive FieldList where
  | nil
  | cons (name : Nat) (ty : Ty) (tail : FieldList)
  deriving DecidableEq

end

/-- `Vec::len` for `TyList`. -/
def TyList.length : TyList → Nat
  | .nil => 0
  | .cons _ t => TyList.length t + 1

/-- `Ty::might_be_weak`. -/
def mightBeWeak : Ty → Bool
  | .IInt 0 | .UInt 0 | .Float 0 => true
  | .Array _ subTy => mightBeWeak subTy
  | .Pointer _ subTy => mightBeWeak subTy
  | _ => false

mutual

/-- `Ty::is_equal_to`.  The source first tests `self == other`
(structural equality of the interned representations) and otherwise
matches on the pair; pairs not covered by an arm yield `false`. -/
def isEqualTo (self other : Ty) : Bool :=
  if self = other then true
  else
    match self with
    | .Array s1 t1 =>
      match other with
      | .Array s2 t2 => s1 = s2 && isEqualTo t1 t2
      | _ => false
    | .Pointer m1 t1 =>
      match other with
      | .Pointer m2 t2 => m1 = m2 && isEqualTo t1 t2
      | _ => false
    | .Distinct _ u1 _ =>
      match other with
      | .Distinct _ u2 _ => u1 = u2
      | _ => false
    | .Function p1 r1 =>
      match other with
      | .Function p2 r2 =>
        isEqualTo r1 r2 && p1.length = p2.length && zipAllEqualTo p1 p2
      | _ => false
    | _ => false

/-- `first_params.iter().zip(second_params.iter()).all(is_equal_to)`:
`zip` truncates at the shorter list. -/
def zipAllEqualTo : TyList → TyList → Bool
  | .cons a as', .cons b bs' => isEqualTo a b && zipAllEqualTo as' bs'
  | _, _ => true

end

/-- `Ty::can_fit_into`.  Structural recursion is on `expected`. -/
def canFitInto (self expected : Ty) : Bool :=
  if self = expected then true
  else
    match self with
    -- (Ty::Unknown, _) => true
    | .Unknown => true
    | .IInt f =>
      match expected with
      -- (_, Ty::Unknown) => true
      | .Unknown => true
      -- (Ty::IInt(found), Ty::IInt(expected)) => expected == 0 || found <= expected
      | .IInt e => e = 0 || f ≤ e
      -- (Ty::IInt(_), Ty::UInt(0)) => true
      | .UInt 0 => true
      -- (Ty::IInt(_), Ty::UInt(_)) => false
      | .UInt _ => false
      -- (Ty::IInt(found) | .., Ty::Float(expected)) => found == 0 || found < expected
      | .Float e => f = 0 || f < e
      -- (found, Ty::Distinct { ty, .. }) => found.can_fit_into(ty)
      | .Distinct _ _ t => canFitInto (.IInt f) t
      -- (found, expected) => found.is_equal_to(expected)
      | e => isEqualTo (.IInt f) e
    | .UInt f =>
      match expected with
      | .Unknown => true
      -- (Ty::UInt(found), Ty::UInt(expected)) => expected == 0 || found <= expected
      | .UInt e => e = 0 || f ≤ e
      -- (Ty::UInt(found), Ty::IInt(expected)) => expected == 0 || found < expected
      | .IInt e => e = 0 || f < e
      -- (.. | Ty::UInt(found), Ty::Float(expected)) => found == 0 || found < expected
      | .Float e => f = 0 || f < e
      | .Distinct _ _ t => canFitInto (.UInt f) t
      | e => isEqualTo (.UInt f) e
    | .Float f =>
      match expected with
      | .Unknown => true
      -- (Ty::Float(found), Ty::Float(expected)) => expected == 0 || found <= expected
      | .Float e => e = 0 || f ≤ e
      | .Distinct _ _ t => canFitInto (.Float f) t
      | e => isEqualTo (.Float f) e
    | .Pointer fm ft =>
      match expected with
      | .Unknown => true
      -- (Ty::Pointer { .. }, Ty::Pointer { .. }): mutability covariance
      -- `matches!((found_mutable, expected_mutable), (true, _) | (false, false))`
      -- and `(**expected_ty == Ty::Any && !found_ty.might_be_weak())
      --       || found_ty.can_fit_into(expected_ty)`
      | .Pointer em et =>
        (fm || !em) && ((et = Ty.Any && !mightBeWeak ft) || canFitInto ft et)
      | .Distinct _ _ t => canFitInto (.Pointer fm ft) t
      | e => isEqualTo (.Pointer fm ft) e
    | .Array fs ft =>
      match expected with
      | .Unknown => true
      -- (Ty::Array .., Ty::Array ..) => sizes equal && element fit
      | .Array es et => fs = es && canFitInto ft et
      | .Distinct _ _ t => canFitInto (.Array fs ft) t
      | e => isEqualTo (.Array fs ft) e
    | .Struct f1 fu fl =>
      match expected with
      | .Unknown => true
      -- (Ty::Struct .., Ty::Struct ..) => found_uid == expected_uid
      | .Struct _ eu _ => fu = eu
      | .Distinct _ _ t => canFitInto (.Struct f1 fu fl) t
      | e => isEqualTo (.Struct f1 fu fl) e
    | .Distinct f1 fu t1 =>
      match expected with
      | .Unknown => true
      -- (Ty::Distinct .., Ty::Distinct ..) => found_uid == expected_uid
      | .Distinct _ eu _ => fu = eu
      | e => isEqualTo (.Distinct f1 fu t1) e
    | s =>
      match expected with
      | .Unknown => true
      | .Distinct _ _ t => canFitInto s t
      | e => isEqualTo s e

/-- `Ty::has_semantics_of`.  In the source, arms that do not
early-return fall through to `self.can_fit_into(expected)`. -/
def hasSemanticsOf (self expected : Ty) : Bool :=
  match self with
  | .Distinct f u t =>
    match expected with
    -- (Ty::Distinct { ty, .. }, Ty::IInt(0) | Ty::UInt(0))
    | .IInt 0 =>
      if hasSemanticsOf t (.IInt 0) then true
      else canFitInto (.Distinct f u t) (.IInt 0)
    | .UInt 0 =>
      if hasSemanticsOf t (.UInt 0) then true
      else canFitInto (.Distinct f u t) (.UInt 0)
    -- (Ty::Distinct { .. }, Ty::IInt(_) | Ty::UInt(_)) => return false
    | .IInt _ => false
    | .UInt _ => false
    -- (Ty::Distinct .., Ty::Distinct ..): equal uids early-return true
    | .Distinct ef eu et =>
      if u = eu then true
      else canFitInto (.Distinct f u t) (.Distinct ef eu et)
    -- (Ty::Distinct { ty: inner_ty, .. }, expected)
    | e =>
      if hasSemanticsOf t e then true
      else canFitInto (.Distinct f u t) e
  | s => canFitInto s expected

/-- `(int_bit_width, float_bit_width)` arms of `Ty::max`: the weak-int
arm `(IInt(0) | UInt(0), Float(w))` and the strong-int arm
`(IInt(i) | UInt(i), Float(w))`, which apply identically in either
argument order. -/
def intFloatMax (i w : Nat) : Option Ty :=
  if i = 0 then some (.Float w)
  else if i < 64 ∧ w = 0 then some (.Float (Nat.max (i * 2) 32))
  else if i < w then some (.Float w)
  else none

/-- `Ty::max`.  The source first tests `self == other`. -/
def Ty.max (self other : Ty) : Option Ty :=
  if self = other then some self
  else
    match self with
    | .IInt a =>
      match other with
      -- (Ty::IInt(a), Ty::IInt(b)) => IInt(max a b)
      | .IInt b => some (.IInt (Nat.max a b))
      -- (IInt(0) | UInt(0), IInt(0) | UInt(0)) => IInt(0); otherwise
      -- (IInt(s), UInt(u)) => if s > u { IInt(s) } else { None }
      | .UInt b =>
        if a = 0 ∧ b = 0 then some (.IInt 0)
        else if a > b then some (.IInt a)
        else none
      | .Float w => intFloatMax a w
      -- (Distinct, other) | (other, Distinct)
      | .Distinct f u t =>
        if hasSemanticsOf (.Distinct f u t) (.IInt a) then some (.Distinct f u t)
        else none
      -- (Unknown, other) | (other, Unknown) => other
      | .Unknown => some (.IInt a)
      | _ => none
    | .UInt a =>
      match other with
      -- (Ty::UInt(a), Ty::UInt(b)) => UInt(max a b)
      | .UInt b => some (.UInt (Nat.max a b))
      | .IInt b =>
        if a = 0 ∧ b = 0 then some (.IInt 0)
        else if b > a then some (.IInt b)
        else none
      | .Float w => intFloatMax a w
      | .Distinct f u t =>
        if hasSemanticsOf (.Distinct f u t) (.UInt a) then some (.Distinct f u t)
        else none
      | .Unknown => some (.UInt a)
      | _ => none
    | .Float w =>
      match other with
      -- (Ty::Float(a), Ty::Float(b)) => Float(max a b)
      | .Float w2 => some (.Float (Nat.max w w2))
      | .IInt i => intFloatMax i w
      | .UInt i => intFloatMax i w
      | .Distinct f u t =>
        if hasSemanticsOf (.Distinct f u t) (.Float w) then some (.Distinct f u t)
        else none
      | .Unknown => some (.Float w)
      | _ => none
    -- (Distinct, other) covers every `other`, including Unknown
    | .Distinct f u t =>
      if hasSemanticsOf (.Distinct f u t) other then some (.Distinct f u t)
      else none
    | .Unknown =>
      match other with
      -- (other, Distinct) precedes (Unknown, other) in the source
      | .Distinct f u t =>
        if hasSemanticsOf (.Distinct f u t) .Unknown then some (.Distinct f u t)
        else none
      | o => some o
    | s =>
      match other with
      | .Distinct f u t =>
        if hasSemanticsOf (.Distinct f u t) s then some (.Distinct f u t)
        else none
      | .Unknown => some s
      | _ => none

/-- `hir::UnaryOp`. -/
inductive UnaryOp where
  | Pos
  | Neg
  | BNot
  | LNot
  deriving DecidableEq

/-- `UnaryOutput for UnaryOp`: `get_possible_output_ty`. -/
def unaryOutputTy (op : UnaryOp) (input : Ty) : Ty :=
  match op with
  | .Neg =>
    match input with
    | .UInt w => .IInt w
    | _ => input
  | .Pos | .BNot | .LNot => input

/-- `TypedOp for UnaryOp`: `can_perform`, the slice-`any` unfolded. -/
def unaryCanPerform (op : UnaryOp) (found : Ty) : Bool :=
  match op with
  | .Neg | .Pos | .BNot =>
    hasSemanticsOf found (.IInt 0) || hasSemanticsOf found (.Float 0)
  | .LNot => hasSemanticsOf found .Bool

set_option maxHeartbeats 1000000 in
theorem canFitInto_refl (t : Ty) : canFitInto t t = true := by
  rw [canFitInto.eq_def]
  exact if_pos rfl

theorem canFitInto_distinct_distinct (f : Option Nat) (u : Nat) (t : Ty)
    (f2 : Option Nat) (u2 : Nat) (t2 : Ty) :
    canFitInto (.Distinct f u t) (.Distinct f2 u2 t2) = decide (u = u2) := by
  rw [canFitInto.eq_def]
  by_cases h : u = u2
  · subst h
    simp
  · simp [h]

theorem hasSemanticsOf_distinct_distinct (f : Option Nat) (u : Nat) (t : Ty)
    (f2 : Option Nat) (u2 : Nat) (t2 : Ty) :
    hasSemanticsOf (.Distinct f u t) (.Distinct f2 u2 t2) = decide (u = u2) := by
  rw [hasSemanticsOf.eq_def]
  by_cases h : u = u2
  · simp [h]
  · simp [h, canFitInto_distinct_distinct]

theorem canFitInto_iint_iint (i j : Nat) :
    canFitInto (.IInt i) (.IInt j) = true ↔ j = 0 ∨ i ≤ j := by
  by_cases hij : i = j
  · subst hij
    simp [canFitInto_refl]
  · rw [canFitInto.eq_def, if_neg (by simp [hij])]
    simp

theorem canFitInto_uint_uint (i j : Nat) :
    canFitInto (.UInt i) (.UInt j) = true ↔ j = 0 ∨ i ≤ j := by
  by_cases hij : i = j
  · subst hij
    simp [canFitInto_refl]
  · rw [canFitInto.eq_def, if_neg (by simp [hij])]
    rcases j with _ | j <;> simp

theorem canFitInto_uint_iint (u s : Nat) :
    canFitInto (.UInt u) (.IInt s) = true ↔ s = 0 ∨ u < s := by
  rw [canFitInto.eq_def, if_neg (by simp)]
  simp

theorem canFitInto_iint_uint (s u : Nat) :
    canFitInto (.IInt s) (.UInt u) = true ↔ u = 0 := by
  rw [canFitInto.eq_def, if_neg (by simp)]
  rcases u with _ | u <;> simp

theorem canFitInto_pointer_pointer (fm : Bool) (ft : Ty) (em : Bool) (et : Ty) :
    canFitInto (.Pointer fm ft) (.Pointer em et) = true ↔
      (fm = true ∨ em = false) ∧
        ((et = Ty.Any ∧ mightBeWeak ft = false) ∨ canFitInto ft et = true) := by
  rw [canFitInto.eq_def]
  by_cases hpp : Ty.Pointer fm ft = Ty.Pointer em et
  · rw [if_pos hpp]
    rw [Ty.Pointer.injEq] at hpp
    obtain ⟨hm, ht⟩ := hpp
    subst hm
    subst ht
    simp only [true_iff]
    constructor
    · cases fm
      · exact Or.inr rfl
      · exact Or.inl rfl
    · exact Or.inr (canFitInto_refl ft)
  · rw [if_neg hpp]
    simp [Bool.not_eq_true']

theorem canFitInto_pointer_any (fm : Bool) (ft : Ty) (em : Bool)
    (hmut : fm = true ∨ em = false) (hweak : mightBeWeak ft = false) :
    canFitInto (.Pointer fm ft) (.Pointer em .Any) = true := by
  rw [canFitInto_pointer_pointer]
  exact ⟨hmut, Or.inl ⟨rfl, hweak⟩⟩

/-- C1: the fit relation `can_fit_into(found, expected)` on integer and
pointer types: for integer types of the same signedness, found fits into
expected iff the expected width is `0` (weak) or the found width is at
most the expected width; an unsigned type fits into a signed type iff the
signed width is `0` or strictly larger than the unsigned width; a signed
type never fits into an unsigned type except when the target is the weak
`UInt(0)`; a pointer fits into a pointer iff the found side is mutable or
both sides are immutable (mut → const, never const → mut) and either the
expected sub-type is `Any` with a non-weak found sub-type, or the found
sub-type fits into the expected one; in particular a pointer to `Any`
accepts any mutability-compatible pointer whose sub-type is not weak. -/
theorem can_fit_into_spec :
    (∀ i j : Nat, canFitInto (.IInt i) (.IInt j) = true ↔ j = 0 ∨ i ≤ j) ∧
    (∀ i j : Nat, canFitInto (.UInt i) (.UInt j) = true ↔ j = 0 ∨ i ≤ j) ∧
    (∀ u s : Nat, canFitInto (.UInt u) (.IInt s) = true ↔ s = 0 ∨ u < s) ∧
    (∀ s u : Nat, canFitInto (.IInt s) (.UInt u) = true ↔ u = 0) ∧
    (∀ (fm : Bool) (ft : Ty) (em : Bool) (et : Ty),
      canFitInto (.Pointer fm ft) (.Pointer em et) = true ↔
        (fm = true ∨ em = false) ∧
          ((et = Ty.Any ∧ mightBeWeak ft = false) ∨ canFitInto ft et = true)) ∧
    (∀ (fm : Bool) (ft : Ty) (em : Bool),
      (fm = true ∨ em = false) → mightBeWeak ft = false →
        canFitInto (.Pointer fm ft) (.Pointer em .Any) = true) :=
  ⟨canFitInto_iint_iint, canFitInto_uint_uint, canFitInto_uint_iint,
    canFitInto_iint_uint, canFitInto_pointer_pointer, canFitInto_pointer_any⟩

/-- Witness for `can_fit_into_spec`: concrete instantiation of the part
with hypotheses (a `^mut i32` fits into `^any`). -/
theorem can_fit_into_spec_witness :
    canFitInto (.Pointer true (.IInt 32)) (.Pointer false .Any) = true :=
  can_fit_into_spec.2.2.2.2.2 true (.IInt 32) false (Or.inl rfl) (by decide)

theorem tyMax_iint_float (i w : Nat) :
    Ty.max (.IInt i) (.Float w) = intFloatMax i w := by
  rw [Ty.max.eq_def, if_neg (by simp)]

theorem tyMax_uint_float (i w : Nat) :
    Ty.max (.UInt i) (.Float w) = intFloatMax i w := by
  rw [Ty.max.eq_def, if_neg (by simp)]

theorem tyMax_float_iint (i w : Nat) :
    Ty.max (.Float w) (.IInt i) = intFloatMax i w := by
  rw [Ty.max.eq_def, if_neg (by simp)]

theorem tyMax_float_uint (i w : Nat) :
    Ty.max (.Float w) (.UInt i) = intFloatMax i w := by
  rw [Ty.max.eq_def, if_neg (by simp)]

theorem intFloatMax_spec (i w : Nat) :
    intFloatMax i w =
      if i = 0 then some (.Float w)
      else if w = 0 then
        (if i < 64 then some (.Float (Nat.max (2 * i) 32)) else none)
      else if i < w then some (.Float w)
      else none := by
  rw [intFloatMax]
  split_ifs <;> first | rfl | omega | rw [Nat.mul_comm]

/-- C2: `Ty::max` on an integer type `IInt(i)`/`UInt(i)` and a float type
`Float(w)`, in either argument order: a weak integer side (`i = 0`) gives
`Float(w)`; a strong integer side with a weak float side (`w = 0`) gives
`Float(max(2*i, 32))` exactly when `i < 64` and otherwise no common type;
with both sides strong the result is `Float(w)` exactly when `i < w`, and
otherwise there is no common type. -/
theorem ty_max_int_float_spec (i w : Nat) :
    Ty.max (.IInt i) (.Float w) = Ty.max (.UInt i) (.Float w) ∧
    Ty.max (.Float w) (.IInt i) = Ty.max (.IInt i) (.Float w) ∧
    Ty.max (.Float w) (.UInt i) = Ty.max (.IInt i) (.Float w) ∧
    Ty.max (.IInt i) (.Float w) =
      (if i = 0 then some (.Float w)
       else if w = 0 then
         (if i < 64 then some (.Float (Nat.max (2 * i) 32)) else none)
       else if i < w then some (.Float w)
       else none) := by
  rw [tyMax_iint_float, tyMax_uint_float, tyMax_float_iint, tyMax_float_uint]
  exact ⟨rfl, rfl, rfl, intFloatMax_spec i w⟩

/-- C9 counterexample: `-` can be performed on the unsigned type `u8`
(any integer type has the semantics of the weak `{int}`), but its output
type `IInt(8)` differs from the operand type `UInt(8)`, refuting the
claim that the accepted operand types are only the signed-integer and
float families and that the output always equals the operand type. -/
theorem unary_neg_uint_counterexample :
    unaryCanPerform .Neg (.UInt 8) = true ∧
      unaryOutputTy .Neg (.UInt 8) ≠ .UInt 8 := by
  refine ⟨by decide, by decide⟩

/-- C9 (amended): for every type `T` on which `-`, `+` or `~` can be
performed (the accepted operand types being those with integer or float
semantics, which includes unsigned integer types), the output type equals
the operand type `T`, except for `-` on an unsigned type `UInt(w)`, whose
output type is `IInt(w)`. -/
theorem unary_output_spec (op : UnaryOp) (t : Ty) (hop : op ≠ .LNot)
    (hperf : unaryCanPerform op t = true) :
    unaryOutputTy op t =
      match op, t with
      | .Neg, .UInt w => .IInt w
      | _, _ => t := by
  cases op <;> cases t <;> rfl

/-- Witness for `unary_output_spec` at `op = -`, `T = u8`. -/
theorem unary_output_spec_witness :
    unaryOutputTy .Neg (.UInt 8) = .IInt 8 :=
  unary_output_spec .Neg (.UInt 8) (by decide) (by decide)

/-- C10 counterexample: `Ty::max` is not commutative on the whole type
universe.  Two `Distinct` types that share a `uid` but differ otherwise
(here in their `fqn` and inner type) absorb each other: each call order
returns its own left-hand `Distinct` wrapper. -/
theorem ty_max_not_comm :
    Ty.max (.Distinct (some 1) 0 (.IInt 32)) (.Distinct (some 2) 0 .Bool) ≠
      Ty.max (.Distinct (some 2) 0 .Bool) (.Distinct (some 1) 0 (.IInt 32)) := by
  decide

/-- C10 (amended): `Ty::max` is commutative on every pair of types except
two structurally different `Distinct` types sharing a `uid` (an input
that violates the compiler's invariant that a `uid` is assigned to one
declaration): if `a` and `b` are `Distinct` with equal `uid`s only when
they are equal, then `a.max(b) = b.max(a)`. -/
theorem ty_max_comm (a b : Ty)
    (h : ∀ (f f2 : Option Nat) (u : Nat) (t t2 : Ty),
      a = .Distinct f u t → b = .Distinct f2 u t2 → a = b) :
    Ty.max a b = Ty.max b a := by
  by_cases hab : a = b
  · subst hab
    rfl
  · have hba : ¬b = a := fun hh => hab hh.symm
    rw [Ty.max.eq_def, Ty.max.eq_def, if_neg hab, if_neg hba]
    cases a <;> cases b <;> (try dsimp only) <;>
      (first
        | rfl
        | (split_ifs <;> first | rfl | omega)
        | (simp [Nat.max_comm]; done)
        | (rename_i f1 u1 t1 f2 u2 t2
           rw [hasSemanticsOf_distinct_distinct, hasSemanticsOf_distinct_distinct]
           by_cases hu : u1 = u2
           · subst hu
             exact absurd (h f1 f2 u1 t1 t2 rfl rfl) hab
           · rw [decide_eq_false hu, decide_eq_false fun hh => hu hh.symm]
             rfl))

/-- Witness for `ty_max_comm` on a pair of distinct `Distinct` types with
different `uid`s. -/
theorem ty_max_comm_witness :
    Ty.max (.Distinct none 1 (.IInt 32)) (.Distinct none 2 .Bool) =
      Ty.max (.Distinct none 2 .Bool) (.Distinct none 1 (.IInt 32)) :=
  ty_max_comm (.Distinct none 1 (.IInt 32)) (.Distinct none 2 .Bool)
    (fun f f2 u t t2 h1 h2 => by
      injection h1 with hf hu ht
      injection h2 with hf2 hu2 ht2
      omega)

/-! ## Body lowering (`crates/hir/src/body.rs`): shared data -/

/-- `text_size::TextRange`; `stop` models the `end` field. -/
structure TextRange where
  start : Nat
  stop : Nat
  deriving DecidableEq

/-- `LoweringDiagnosticKind` from `crates/hir/src/body.rs`.  Interned
`Key`s are `Nat`; path strings are dropped (they are never inspected). -/
inductive LoweringDiagnosticKind where
  | OutOfRangeIntLiteral
  | UndefinedRef (name : Nat)
  | UndefinedLabel (name : Nat)
  | NonGlobalExtern
  | ArraySizeNotConst
  | ArraySizeMismatch (found : Nat) (expected : Nat)
  | InvalidEscape
  | TooManyCharsInCharLiteral
  | EmptyCharLiteral
  | NonU8CharLiteral
  | ModMustBeAlphanumeric
  | ModDoesNotExist
  | ModDoesNotContainModFile
  | ImportMustEndInDotCapy
  | ImportDoesNotExist
  | ImportOutsideCWD
  | ContinueNonLoop (name : Option Nat)
  deriving DecidableEq

/-- `LoweringDiagnostic`: a kind together with a source range. -/
structure LoweringDiagnostic where
  kind : LoweringDiagnosticKind
  range : TextRange
  deriving DecidableEq

/-! ## C4: integer literal lowering (`Ctx::lower_int_literal`) -/

/-- Numeric value of a digit string, as accumulated by `str::parse`. -/
def digitsVal (s : List Char) : Nat :=
  s.foldl (fun acc c => acc * 10 + (c.toNat - 48)) 0

/-- `str::parse::<u64>` on the integer-token alphabet: the token text
consists of decimal digits (the lexer produces no sign characters), so
parsing succeeds exactly on a nonempty all-digit string whose value fits
in 64 bits. -/
def parseU64 (s : List Char) : Option Nat :=
  if s ≠ [] ∧ s.all Char.isDigit then
    if digitsVal s < 2 ^ 64 then some (digitsVal s) else none
  else none

/-- `str::parse::<u32>` (the exponent of `checked_pow`), same alphabet. -/
def parseU32 (s : List Char) : Option Nat :=
  if s ≠ [] ∧ s.all Char.isDigit then
    if digitsVal s < 2 ^ 32 then some (digitsVal s) else none
  else none

/-- `str::split(['e', 'E'])`: splits at every occurrence of `e`/`E`;
always yields at least one (possibly empty) part. -/
def splitE : List Char → List (List Char)
  | [] => [[]]
  | c :: rest =>
    if c = 'e' ∨ c = 'E' then [] :: splitE rest
    else
      match splitE rest with
      | p :: ps => (c :: p) :: ps
      | [] => [[c]]

/-- `Ctx::lower_int_literal` on the token text: `some v` is
`Expr::IntLiteral(v)`, `none` is `OutOfRangeIntLiteral` plus
`Expr::Missing`.  Mirrors the source: strip `_` (`replace`), split on
`e`/`E`, take the first part (`value.next().unwrap()`, modelled by
`headD` since `splitE` always yields a part) and parse it as `u64`
(`let Ok(base) = .. else ..` is `Option.bind`); if a second part exists
(`if let Some(e) = value.next()`), parse it as `u32` and chain
`10u64.checked_pow(e)` and `base.checked_mul(..)` with `and_then`
(again `Option.bind`). -/
def lowerIntLiteralVal (text : List Char) : Option Nat :=
  let parts := splitE (text.filter (fun c => c ≠ '_'))
  (parseU64 (parts.headD [])).bind fun base =>
    match (parts.drop 1).head? with
    | some e =>
      ((parseU32 e).bind fun ev =>
        if 10 ^ ev < 2 ^ 64 then some (10 ^ ev) else none).bind fun p =>
        if base * p < 2 ^ 64 then some (base * p) else none
    | none => some base

/-! ## C6: char literal lowering (`Ctx::lower_char_literal`) -/

/-- `ast::StringComponent`: an escape token `\c` (modelled by the char
after the backslash) or a run of plain contents. -/
inductive StringComponent where
  | escape (c : Char)
  | contents (s : List Char)

/-- The recognized escapes of `lower_char_literal` (and
`lower_string_literal`); `none` is an `InvalidEscape` (nothing pushed). -/
def escapeCharValue (c : Char) : Option Char :=
  match c with
  | '0' => some (Char.ofNat 0)
  | 'a' => some (Char.ofNat 7)
  | 'b' => some (Char.ofNat 8)
  | 'n' => some (Char.ofNat 10)
  | 'f' => some (Char.ofNat 12)
  | 'r' => some (Char.ofNat 13)
  | 't' => some (Char.ofNat 9)
  | 'v' => some (Char.ofNat 11)
  | 'e' => some (Char.ofNat 27)
  | '"' => some '"'
  | '\\' => some '\\'
  | c => if c = Char.ofNat 39 then some (Char.ofNat 39) else none

/-- The component loop of `lower_char_literal`: accumulated text,
`total_len` (each escape counts 1 even when invalid), and diagnostics in
production order. -/
def charLitScan : List StringComponent → List Char × Nat × List LoweringDiagnosticKind
  | [] => ([], 0, [])
  | .escape c :: rest =>
    let r := charLitScan rest
    match escapeCharValue c with
    | some ch => (ch :: r.1, r.2.1 + 1, r.2.2)
    | none => (r.1, r.2.1 + 1, .InvalidEscape :: r.2.2)
  | .contents s :: rest =>
    let r := charLitScan rest
    (s ++ r.1, r.2.1 + s.length, r.2.2)

/-- `Ctx::lower_char_literal`: the produced `Expr::CharLiteral` byte and
the diagnostics.  `total_len.cmp(&1)` decides between empty, single and
too-many; in the single case `text.chars().next().unwrap_or('\0')` is
converted by `u8::try_from`, which succeeds exactly on code points
`<= 255`. -/
def lowerCharLiteral (comps : List StringComponent) : Nat × List LoweringDiagnosticKind :=
  let scan := charLitScan comps
  match scan.2.1 with
  | 0 => (0, scan.2.2 ++ [.EmptyCharLiteral])
  | 1 =>
    let c := scan.1.head?.getD (Char.ofNat 0)
    if c.toNat ≤ 255 then (c.toNat, scan.2.2)
    else (0, scan.2.2 ++ [.NonU8CharLiteral])
  | _ => (0, scan.2.2 ++ [.TooManyCharsInCharLiteral])

/-! ## C3: label resolution (`Ctx::resolve_label`, `Ctx::lower_return`) -/

/-- `ScopeKind` from `crates/hir/src/body.rs`: a labellable block or
loop scope with an optional user label name and a `ScopeId`. -/
inductive ScopeKind where
  | block (name : Option Nat) (id : Nat)
  | loop (name : Option Nat) (id : Nat)
  deriving DecidableEq

/-- The `ScopeId` of a `ScopeKind` (both arms of the `match` in
`lower_return` extract the id). -/
def scopeKindId : ScopeKind → Nat
  | .block _ id => id
  | .loop _ id => id

/-- The label search of `resolve_label` when a label name is present,
walking a `label_kinds.iter().rev()` prefix (so the argument here is the
reversed stack, innermost scope first). -/
def resolveNamedRev (rev : List ScopeKind) (labelName : Nat) (requireLoop : Bool)
    (labelRange : TextRange) : Option Nat × List LoweringDiagnostic :=
  match rev with
  | [] => (none, [⟨.UndefinedLabel labelName, labelRange⟩])
  | .block (some n) id :: rest =>
    if n = labelName then
      (some id,
        if requireLoop then [⟨.ContinueNonLoop (some n), labelRange⟩] else [])
    else resolveNamedRev rest labelName requireLoop labelRange
  | .loop (some n) id :: rest =>
    if n = labelName then (some id, [])
    else resolveNamedRev rest labelName requireLoop labelRange
  | _ :: rest => resolveNamedRev rest labelName requireLoop labelRange

/-- The unlabelled search of `resolve_label`, again over the reversed
stack.  The exhausted-break branch is `unreachable!()` in the source
(break statements only occur inside blocks) and is modelled as
producing no diagnostic. -/
def resolveUnlabelledRev (rev : List ScopeKind) (requireLoop : Bool)
    (wholeRange : TextRange) : Option Nat × List LoweringDiagnostic :=
  match rev with
  | [] =>
    (none, if requireLoop then [⟨.ContinueNonLoop none, wholeRange⟩] else [])
  | .block _ id :: rest =>
    if requireLoop then resolveUnlabelledRev rest requireLoop wholeRange
    else (some id, [])
  | .loop _ id :: _ => (some id, [])

/-- `Ctx::resolve_label`.  `label` models `Option<ast::LabelRef>` as a
range together with `label.name(tree)`; the stack grows by `Vec::push`,
so `label_kinds.iter().rev()` is `List.reverse`. -/
def resolveLabel (labelKinds : List ScopeKind) (wholeRange : TextRange)
    (label : Option (TextRange × Option Nat)) (requireLoop : Bool) :
    Option Nat × List LoweringDiagnostic :=
  match label with
  | some (labelRange, some labelName) =>
    resolveNamedRev labelKinds.reverse labelName requireLoop labelRange
  | _ => resolveUnlabelledRev labelKinds.reverse requireLoop wholeRange

/-- The label computed by `Ctx::lower_return`:
`self.label_kinds.first().map(..)` extracts the id of the outermost
scope on the stack. -/
def lowerReturnLabel (labelKinds : List ScopeKind) : Option Nat :=
  labelKinds.head?.map scopeKindId

/-! ## C7: the driver decision (`crates/capy/src/main.rs`) -/

/-- `diagnostics::Severity` (the diagnostics crate is outside the given
sources; only the two severities compared by the driver are needed). -/
inductive Severity where
  | Warning
  | Error
  deriving DecidableEq

/-- The observable outcome of `eval` + `main` in file mode. -/
structure DriverOutcome where
  codegenInvoked : Bool
  exitCode : Nat
  deriving DecidableEq

/-- The driver decision in `eval`: code generation runs iff
`!diagnostics.iter().any(|diag| diag.severity() == Severity::Error)`;
in either branch `eval` returns `Ok(())` and `main` then returns
`Ok(())`, so the process exit code is `0`. -/
def evalDriver (diags : List Severity) : DriverOutcome :=
  if diags.any (fun d => d = .Error) then
    ⟨false, 0⟩
  else
    ⟨true, 0⟩

/-! ## Theorems for C7 -/

/-- C7 counterexample: with a single error-severity diagnostic the driver
does skip code generation, but `eval` and `main` still return `Ok(())`,
so the process exit code is `0`, not non-zero as claimed. -/
theorem driver_error_zero_exit :
    (evalDriver [.Error]).codegenInvoked = false ∧
      (evalDriver [.Error]).exitCode = 0 := by
  refine ⟨rfl, rfl⟩

/-- C7 (amended): after all phases, the backend is invoked iff no
collected diagnostic has severity error; when an error-severity
diagnostic exists, code generation is skipped but the driver still exits
with code `0` (it prints a message and returns `Ok(())`). -/
theorem driver_decision_spec (diags : List Severity) :
    (evalDriver diags).codegenInvoked = !diags.any (fun d => d = .Error) ∧
      (evalDriver diags).exitCode = 0 := by
  unfold evalDriver
  by_cases h : diags.any (fun d => d = .Error) = true
  · simp [h]
  · simp [h]

/-! ## Theorems for C4 -/

theorem digit_char_not_sep {c : Char} (h : c.isDigit = true) :
    ¬(c = 'e' ∨ c = 'E') := by
  rintro (rfl | rfl) <;> simp [Char.isDigit] at h

theorem splitE_no_sep (l : List Char) (h : ∀ c ∈ l, ¬(c = 'e' ∨ c = 'E')) :
    splitE l = [l] := by
  induction l with
  | nil => rfl
  | cons c rest ih =>
    rw [splitE, if_neg (h c (List.mem_cons_self c rest))]
    rw [ih fun x hx => h x (List.mem_cons_of_mem c hx)]

theorem splitE_append_sep (bs : List Char) (c : Char) (es : List Char)
    (hbs : ∀ x ∈ bs, ¬(x = 'e' ∨ x = 'E')) (hc : c = 'e' ∨ c = 'E')
    (hes : ∀ x ∈ es, ¬(x = 'e' ∨ x = 'E')) :
    splitE (bs ++ c :: es) = [bs, es] := by
  induction bs with
  | nil =>
    rw [List.nil_append, splitE, if_pos hc, splitE_no_sep es hes]
  | cons d bs ih =>
    rw [List.cons_append, splitE,
      if_neg (hbs d (List.mem_cons_self d bs)),
      ih fun x hx => hbs x (List.mem_cons_of_mem d hx)]

theorem all_digit_not_sep {l : List Char} (h : l.all Char.isDigit = true) :
    ∀ c ∈ l, ¬(c = 'e' ∨ c = 'E') := by
  intro c hc
  exact digit_char_not_sep (List.all_eq_true.mp h c hc)

theorem two_pow_le_ten_pow (e : Nat) : 2 ^ e ≤ 10 ^ e :=
  Nat.pow_le_pow_left (by omega) e

/-- C4 part 1 as a lemma: a token without an exponent suffix. -/
theorem lowerIntLiteralVal_no_exp (token bs : List Char)
    (hfilter : token.filter (fun c => c ≠ '_') = bs)
    (hne : bs ≠ []) (hdig : bs.all Char.isDigit = true) :
    lowerIntLiteralVal token =
      if digitsVal bs < 2 ^ 64 then some (digitsVal bs) else none := by
  rw [lowerIntLiteralVal, hfilter, splitE_no_sep bs (all_digit_not_sep hdig)]
  show (parseU64 bs).bind (fun base => some base) = _
  rw [parseU64, if_pos ⟨hne, hdig⟩]
  by_cases hv : digitsVal bs < 2 ^ 64
  · rw [if_pos hv, Option.some_bind]
  · rw [if_neg hv, Option.none_bind]

/-- C4 part 2 as a lemma: a token with an `e`/`E` suffix. -/
theorem lowerIntLiteralVal_exp (token bs es : List Char) (c : Char)
    (hfilter : token.filter (fun c => c ≠ '_') = bs ++ c :: es)
    (hc : c = 'e' ∨ c = 'E')
    (hbne : bs ≠ []) (hbdig : bs.all Char.isDigit = true)
    (hene : es ≠ []) (hedig : es.all Char.isDigit = true) :
    lowerIntLiteralVal token =
      if digitsVal bs < 2 ^ 64 ∧ 10 ^ digitsVal es < 2 ^ 64 ∧
          digitsVal bs * 10 ^ digitsVal es < 2 ^ 64
      then some (digitsVal bs * 10 ^ digitsVal es)
      else none := by
  rw [lowerIntLiteralVal, hfilter,
    splitE_append_sep bs c es (all_digit_not_sep hbdig) hc (all_digit_not_sep hedig)]
  show ((parseU64 bs).bind fun base =>
      ((parseU32 es).bind fun ev =>
        if 10 ^ ev < 2 ^ 64 then some (10 ^ ev) else none).bind fun p =>
        if base * p < 2 ^ 64 then some (base * p) else none) = _
  rw [parseU64, if_pos ⟨hbne, hbdig⟩]
  by_cases hb : digitsVal bs < 2 ^ 64
  · rw [if_pos hb]
    simp only [Option.some_bind]
    rw [parseU32, if_pos ⟨hene, hedig⟩]
    by_cases he32 : digitsVal es < 2 ^ 32
    · rw [if_pos he32]
      simp only [Option.some_bind]
      by_cases hp : 10 ^ digitsVal es < 2 ^ 64
      · rw [if_pos hp]
        simp only [Option.some_bind]
        by_cases hm : digitsVal bs * 10 ^ digitsVal es < 2 ^ 64
        · rw [if_pos hm, if_pos ⟨hb, hp, hm⟩]
        · rw [if_neg hm, if_neg (by intro hh; exact hm hh.2.2)]
      · rw [if_neg hp]
        simp only [Option.none_bind]
        rw [if_neg (by intro hh; exact hp hh.2.1)]
    · rw [if_neg he32]
      simp only [Option.none_bind]
      have h64 : ¬10 ^ digitsVal es < 2 ^ 64 := by
        intro hlt
        have h1 : 2 ^ digitsVal es ≤ 10 ^ digitsVal es := two_pow_le_ten_pow _
        have h2 : 2 ^ digitsVal es < 2 ^ 64 := Nat.lt_of_le_of_lt h1 hlt
        have h3 : digitsVal es < 64 := by
          by_contra hge
          push_neg at hge
          have h4 : (2 : Nat) ^ 64 ≤ 2 ^ digitsVal es := Nat.pow_le_pow_right (by omega) hge
          omega
        omega
      rw [if_neg (by intro hh; exact h64 hh.2.1)]
  · rw [if_neg hb]
    simp only [Option.none_bind]
    rw [if_neg (by intro hh; exact hb hh.1)]

/-- C4: an integer literal token of digits with optional `_` separators
and optional `e`/`E` suffix with an unsigned exponent is lowered to
`(underscore-stripped base) * 10^exponent` computed exactly in `u64`
arithmetic; when the base does not parse as `u64`, or `10^exponent` or
the multiplication leaves `u64` range, the literal produces
`OutOfRangeIntLiteral` and lowers to `Missing` (modelled by `none`); in
particular `18446744073709551615` lowers to that value with no
diagnostic and `18446744073709551616` is out of range. -/
theorem int_literal_spec :
    (∀ token bs : List Char, token.filter (fun c => c ≠ '_') = bs →
      bs ≠ [] → bs.all Char.isDigit = true →
      lowerIntLiteralVal token =
        if digitsVal bs < 2 ^ 64 then some (digitsVal bs) else none) ∧
    (∀ (token bs es : List Char) (c : Char),
      token.filter (fun c => c ≠ '_') = bs ++ c :: es →
      (c = 'e' ∨ c = 'E') → bs ≠ [] → bs.all Char.isDigit = true →
      es ≠ [] → es.all Char.isDigit = true →
      lowerIntLiteralVal token =
        if digitsVal bs < 2 ^ 64 ∧ 10 ^ digitsVal es < 2 ^ 64 ∧
            digitsVal bs * 10 ^ digitsVal es < 2 ^ 64
        then some (digitsVal bs * 10 ^ digitsVal es)
        else none) ∧
    lowerIntLiteralVal "18446744073709551615".toList =
      some 18446744073709551615 ∧
    lowerIntLiteralVal "18446744073709551616".toList = none :=
  ⟨lowerIntLiteralVal_no_exp, lowerIntLiteralVal_exp, by decide, by decide⟩

/-- Witness for `int_literal_spec`: the token `1_0e2` (with an
underscore separator and an exponent) lowers to `10 * 10^2 = 1000`. -/
theorem int_literal_spec_witness :
    lowerIntLiteralVal "1_0e2".toList =
      (if digitsVal ['1', '0'] < 2 ^ 64 ∧ 10 ^ digitsVal ['2'] < 2 ^ 64 ∧
          digitsVal ['1', '0'] * 10 ^ digitsVal ['2'] < 2 ^ 64
       then some (digitsVal ['1', '0'] * 10 ^ digitsVal ['2'])
       else none) :=
  int_literal_spec.2.1 "1_0e2".toList ['1', '0'] ['2'] 'e' (by decide)
    (Or.inl rfl) (by decide) (by decide) (by decide) (by decide)

/-! ## Theorems for C6 -/

/-- C6 counterexample: the one-character char literal `ÿ` (code point
255) is not ASCII, yet it lowers to `CharLiteral(255)` with no
diagnostic, refuting the claim that a single non-ASCII character emits
`NonU8CharLiteral` and lowers to `CharLiteral(0)`.  The conversion in
the source is `u8::try_from`, which accepts all code points up to 255. -/
theorem char_literal_non_ascii_ok :
    lowerCharLiteral [.contents [Char.ofNat 255]] = (255, []) ∧
      127 < (Char.ofNat 255).toNat := by
  refine ⟨rfl, by decide⟩

/-- C6 (amended): a char literal with zero characters emits
`EmptyCharLiteral` and lowers to `CharLiteral(0)`; one with more than
one character emits `TooManyCharsInCharLiteral` and lowers to
`CharLiteral(0)`; one whose single character has a code point above 255
(not: outside ASCII) emits `NonU8CharLiteral` and lowers to
`CharLiteral(0)`; and a single character of code point at most 255
lowers to that code point with no additional diagnostic. -/
theorem char_literal_spec (comps : List StringComponent) (t : List Char)
    (n : Nat) (d : List LoweringDiagnosticKind)
    (hscan : charLitScan comps = (t, n, d)) :
    (n = 0 → lowerCharLiteral comps = (0, d ++ [.EmptyCharLiteral])) ∧
    (∀ m, n = m + 2 →
      lowerCharLiteral comps = (0, d ++ [.TooManyCharsInCharLiteral])) ∧
    (n = 1 →
      lowerCharLiteral comps =
        if (t.head?.getD (Char.ofNat 0)).toNat ≤ 255
        then ((t.head?.getD (Char.ofNat 0)).toNat, d)
        else (0, d ++ [.NonU8CharLiteral])) := by
  refine ⟨?_, ?_, ?_⟩
  · intro h0
    rw [lowerCharLiteral, hscan, h0]
    rfl
  · intro m hm
    rw [lowerCharLiteral, hscan, hm]
    rfl
  · intro h1
    rw [lowerCharLiteral, hscan, h1]
    rfl

/-- Witness for `char_literal_spec`: the literal `A`. -/
theorem char_literal_spec_witness :
    lowerCharLiteral [.contents ['A']] =
      if ('A').toNat ≤ 255
      then (('A').toNat, ([] : List LoweringDiagnosticKind))
      else (0, [.NonU8CharLiteral]) :=
  (char_literal_spec [.contents ['A']] ['A'] 1 [] rfl).2.2 rfl

/-! ## Theorems for C3 -/

/-- Loop test used to state which scope an unlabelled `continue`
targets. -/
def isLoopScope : ScopeKind → Bool
  | .loop _ _ => true
  | .block _ _ => false

/-- Name test used to state which scope a named label resolves to. -/
def scopeHasName (labelName : Nat) : ScopeKind → Bool
  | .block (some n) _ => n = labelName
  | .loop (some n) _ => n = labelName
  | _ => false

theorem resolveUnlabelledRev_break (rev : List ScopeKind) (k : ScopeKind)
    (rest : List ScopeKind) (w : TextRange) (h : rev = k :: rest) :
    resolveUnlabelledRev rev false w = (some (scopeKindId k), []) := by
  subst h
  cases k <;> rfl

theorem resolveUnlabelledRev_continue (rev : List ScopeKind) (w : TextRange) :
    (rev.find? isLoopScope = none →
      resolveUnlabelledRev rev true w = (none, [⟨.ContinueNonLoop none, w⟩])) ∧
    (∀ k, rev.find? isLoopScope = some k →
      resolveUnlabelledRev rev true w = (some (scopeKindId k), [])) := by
  induction rev with
  | nil => exact ⟨fun _ => rfl, fun k h => by cases h⟩
  | cons hd tl ih =>
    cases hd with
    | block nm id =>
      refine ⟨fun h => ?_, fun k h => ?_⟩
      · rw [List.find?_cons_of_neg _ (by simp [isLoopScope])] at h
        exact ih.1 h
      · rw [List.find?_cons_of_neg _ (by simp [isLoopScope])] at h
        exact ih.2 k h
    | loop nm id =>
      refine ⟨fun h => ?_, fun k h => ?_⟩
      · rw [List.find?_cons_of_pos _ (by simp [isLoopScope])] at h
        cases h
      · rw [List.find?_cons_of_pos _ (by simp [isLoopScope])] at h
        cases h
        rfl

theorem resolveNamedRev_spec (rev : List ScopeKind) (ln : Nat) (rl : Bool)
    (r : TextRange) :
    (rev.find? (scopeHasName ln) = none →
      resolveNamedRev rev ln rl r = (none, [⟨.UndefinedLabel ln, r⟩])) ∧
    (∀ k, rev.find? (scopeHasName ln) = some k →
      resolveNamedRev rev ln rl r =
        (some (scopeKindId k),
          if rl = true ∧ isLoopScope k = false
          then [⟨.ContinueNonLoop (some ln), r⟩]
          else [])) := by
  induction rev with
  | nil => exact ⟨fun _ => rfl, fun k h => by cases h⟩
  | cons hd tl ih =>
    cases hd with
    | block nm id =>
      cases nm with
      | none =>
        refine ⟨fun h => ?_, fun k h => ?_⟩
        · rw [List.find?_cons_of_neg _ (by simp [scopeHasName])] at h
          exact ih.1 h
        · rw [List.find?_cons_of_neg _ (by simp [scopeHasName])] at h
          exact ih.2 k h
      | some n =>
        by_cases hn : n = ln
        · subst hn
          refine ⟨fun h => ?_, fun k h => ?_⟩
          · rw [List.find?_cons_of_pos _ (by simp [scopeHasName])] at h
            cases h
          · rw [List.find?_cons_of_pos _ (by simp [scopeHasName])] at h
            cases h
            rw [resolveNamedRev, if_pos rfl]
            cases rl <;> simp [isLoopScope, scopeKindId]
        · refine ⟨fun h => ?_, fun k h => ?_⟩
          · rw [List.find?_cons_of_neg _ (by simp [scopeHasName, hn])] at h
            rw [resolveNamedRev, if_neg hn]
            exact ih.1 h
          · rw [List.find?_cons_of_neg _ (by simp [scopeHasName, hn])] at h
            rw [resolveNamedRev, if_neg hn]
            exact ih.2 k h
    | loop nm id =>
      cases nm with
      | none =>
        refine ⟨fun h => ?_, fun k h => ?_⟩
        · rw [List.find?_cons_of_neg _ (by simp [scopeHasName])] at h
          exact ih.1 h
        · rw [List.find?_cons_of_neg _ (by simp [scopeHasName])] at h
          exact ih.2 k h
      | some n =>
        by_cases hn : n = ln
        · subst hn
          refine ⟨fun h => ?_, fun k h => ?_⟩
          · rw [List.find?_cons_of_pos _ (by simp [scopeHasName])] at h
            cases h
          · rw [List.find?_cons_of_pos _ (by simp [scopeHasName])] at h
            cases h
            rw [resolveNamedRev, if_pos rfl]
            simp [isLoopScope, scopeKindId]
        · refine ⟨fun h => ?_, fun k h => ?_⟩
          · rw [List.find?_cons_of_neg _ (by simp [scopeHasName, hn])] at h
            rw [resolveNamedRev, if_neg hn]
            exact ih.1 h
          · rw [List.find?_cons_of_neg _ (by simp [scopeHasName, hn])] at h
            rw [resolveNamedRev, if_neg hn]
            exact ih.2 k h

/-- C3: label resolution in body lowering.  A lowered `return` takes the
id of the first (outermost) scope on the label stack; an unlabelled
`break` resolves to the innermost scope of any kind; an unlabelled
`continue` resolves to the innermost loop scope and emits
`ContinueNonLoop` when no loop encloses it; a named label searches the
stack from the innermost scope outward for the first scope carrying that
name, emitting `UndefinedLabel` (and resolving to `None`) when no scope
matches; and a `continue` whose named label resolves to a non-loop block
still resolves to it but emits `ContinueNonLoop`. -/
theorem label_resolution_spec :
    (∀ (k : ScopeKind) (rest : List ScopeKind),
      lowerReturnLabel (k :: rest) = some (scopeKindId k)) ∧
    (∀ (stack : List ScopeKind) (k : ScopeKind) (w : TextRange),
      stack.getLast? = some k →
      resolveLabel stack w none false = (some (scopeKindId k), [])) ∧
    (∀ (stack : List ScopeKind) (w : TextRange),
      stack.reverse.find? isLoopScope = none →
      resolveLabel stack w none true = (none, [⟨.ContinueNonLoop none, w⟩])) ∧
    (∀ (stack : List ScopeKind) (k : ScopeKind) (w : TextRange),
      stack.reverse.find? isLoopScope = some k →
      resolveLabel stack w none true = (some (scopeKindId k), [])) ∧
    (∀ (stack : List ScopeKind) (ln : Nat) (rl : Bool) (w r : TextRange),
      stack.reverse.find? (scopeHasName ln) = none →
      resolveLabel stack w (some (r, some ln)) rl =
        (none, [⟨.UndefinedLabel ln, r⟩])) ∧
    (∀ (stack : List ScopeKind) (k : ScopeKind) (ln : Nat) (rl : Bool)
        (w r : TextRange),
      stack.reverse.find? (scopeHasName ln) = some k →
      resolveLabel stack w (some (r, some ln)) rl =
        (some (scopeKindId k),
          if rl = true ∧ isLoopScope k = false
          then [⟨.ContinueNonLoop (some ln), r⟩]
          else [])) := by
  refine ⟨fun k rest => rfl, ?_, ?_, ?_, ?_, ?_⟩
  · intro stack k w h
    rw [← List.head?_reverse] at h
    show resolveUnlabelledRev stack.reverse false w = _
    cases hrev : stack.reverse with
    | nil => rw [hrev] at h; cases h
    | cons hd tl =>
      rw [hrev] at h
      rw [List.head?_cons] at h
      injection h with hk
      subst hk
      exact resolveUnlabelledRev_break _ hd tl w rfl
  · intro stack w h
    exact (resolveUnlabelledRev_continue stack.reverse w).1 h
  · intro stack k w h
    exact (resolveUnlabelledRev_continue stack.reverse w).2 k h
  · intro stack ln rl w r h
    exact (resolveNamedRev_spec stack.reverse ln rl r).1 h
  · intro stack k ln rl w r h
    exact (resolveNamedRev_spec stack.reverse ln rl r).2 k h

/-- Witness for `label_resolution_spec`: in the stack
`[block 0, loop 1]` (a loop nested in the function block), an
unlabelled `continue` resolves to the loop scope `1`. -/
theorem label_resolution_spec_witness :
    resolveLabel [.block none 0, .loop none 1] ⟨0, 0⟩ none true =
      (some (scopeKindId (.loop none 1)), []) :=
  label_resolution_spec.2.2.2.1 [.block none 0, .loop none 1]
    (.loop none 1) ⟨0, 0⟩ (by decide)

/-! ## C5 and C8: the body-lowering machine (`Ctx` in
`crates/hir/src/body.rs`) on a fragment of the surface syntax.

The fragment covers the constructs the claims quantify over: variable
references, integer literals, blocks, `if`, `while`, lambdas, comptime
blocks, and the statements (expression statements, `:=` definitions,
`return`, `break`, `continue`).  `Option` and `Vec` positions of the
`ast` accessors are represented inside the mutual family (`AOptExpr`,
`AStmtList`, ...) so that all recursion is structural.  `Option`
accessor chains that the source immediately collapses with `and_then`
are collapsed in the model (noted per field). -/

mutual

inductive AExpr where
  | varRef (range : TextRange) (name : Option Nat)
  | intLiteral (range : TextRange) (text : Option (List Char))
  | block (range : TextRange) (label : Option Nat) (stmts : AStmtList) (tail : AOptExpr)
  | ifExpr (range : TextRange) (cond : AOptExpr) (body : AOptExpr) (els : AElse)
  | whileExpr (range : TextRange) (label : Option Nat) (cond : AOptExpr) (body : AOptExpr)
  | lambda (range : TextRange) (params : AParamList) (paramsRange : TextRange)
      (returnTy : AOptExpr) (foreignTok : Option TextRange) (body : AOptExpr)
  | comptime (range : TextRange) (body : AOptExpr)
  deriving DecidableEq

inductive AOptExpr where
  | noneE
  | someE (e : AExpr)
  deriving DecidableEq

inductive AElse where
  | noneB
  | someB (body : AOptExpr)
  deriving DecidableEq

inductive AStmt where
  | exprStmt (range : TextRange) (e : AOptExpr)
  | define (range : TextRange) (mutable : Bool) (name : Option Nat)
      (ty : AOptExpr) (value : AOptExpr)
  | ret (range : TextRange) (value : AOptExpr)
  | brk (range : TextRange) (label : Option (TextRange × Option Nat)) (value : AOptExpr)
  | cont (range : TextRange) (label : Option (TextRange × Option Nat))
  deriving DecidableEq

inductive AStmtList where
  | nil
  | cons (s : AStmt) (rest : AStmtList)
  deriving DecidableEq

inductive AParamList where
  | nil
  | cons (range : TextRange) (name : Option Nat) (ty : AOptExpr) (rest : AParamList)
  deriving DecidableEq

end

/-- `ast::Expr::range(tree)`. -/
def exprRange : AExpr → TextRange
  | .varRef r _ => r
  | .intLiteral r _ => r
  | .block r _ _ _ => r
  | .ifExpr r _ _ _ => r
  | .whileExpr r _ _ _ => r
  | .lambda r _ _ _ _ _ => r
  | .comptime r _ => r

/-- The lowered `Expr` fragment (`hir::Expr`); arena indices are `Nat`. -/
inductive LExpr where
  | Missing
  | IntLiteral (v : Nat)
  | Block (stmts : List Nat) (tail : Option Nat)
  | If (cond : Nat) (body : Nat) (els : Option Nat)
  | While (cond : Option Nat) (body : Nat)
  | Local (idx : Nat)
  | Param (idx : Nat) (range : TextRange)
  | LocalGlobal (name : Nat) (range : TextRange)
  | PrimitiveTy (name : Nat)
  | Lambda (idx : Nat)
  | Comptime (idx : Nat)
  deriving DecidableEq

/-- The lowered `Stmt` fragment (`hir::Stmt`). -/
inductive LStmt where
  | Expr (e : Nat)
  | LocalDef (idx : Nat)
  | Break (label : Option Nat) (value : Option Nat) (range : TextRange)
  | Continue (label : Option Nat) (range : TextRange)
  deriving DecidableEq

/-- `hir::LocalDef` (the `ast` back-pointer is dropped). -/
structure LLocalDef where
  mutable : Bool
  ty : Option Nat
  value : Nat
  range : TextRange
  deriving DecidableEq

/-- `hir::Lambda`.  `foreign` models `is_extern`. -/
structure LLambda where
  params : List (Option Nat × Nat)
  paramsRange : TextRange
  returnTy : Option Nat
  body : Nat
  foreign : Bool
  deriving DecidableEq

/-- `hir::Comptime`. -/
structure LComptime where
  body : Nat
  deriving DecidableEq

/-- The lowering context: `Ctx` plus its `Bodies`.  Arenas are lists
indexed by position; `FxHashMap`s are association lists where the most
recent insertion comes first; `scopes` and `label_kinds` are `Vec`s with
the innermost element last. -/
structure LCtx where
  localDefs : List LLocalDef
  stmts : List LStmt
  exprs : List LExpr
  exprRanges : List (Nat × TextRange)
  labelDecls : List (Nat × Nat)
  labelUsages : List (Nat × Nat)
  lambdas : List LLambda
  comptimes : List LComptime
  diagnostics : List LoweringDiagnostic
  scopes : List (List (Nat × Nat))
  labelKinds : List ScopeKind
  labelGen : Nat
  params : List (Nat × Nat × TextRange)
  /-- names defined at the top level of this file
  (`self.index.get_definition(name).is_some()`). -/
  index : List Nat
  /-- Modelled from the spec: `PrimitiveTy::parse` (in `hir`, outside
  the given sources) recognizes the names of primitive types such as
  `i32` or `bool`; the spec says an identifier may resolve to a
  "primitive type".  Modelled as the set of interned keys accepted. -/
  primitives : List Nat
  deriving DecidableEq

theorem optExpr_sizeOf_pos (x : AOptExpr) : 0 < sizeOf x := by
  cases x <;> simp <;> omega

theorem stmtList_sizeOf_pos (l : AStmtList) : 0 < sizeOf l := by
  cases l <;> simp <;> omega

/-- `FxHashMap::get` on an association list (first match wins). -/
def lookupAssoc {α : Type} (m : List (Nat × α)) (k : Nat) : Option α :=
  (m.find? (fun p => p.1 == k)).map (fun p => p.2)

/-- `Ctx::look_up_in_current_scope`: walk the scope stack innermost
(last) first. -/
def lookUpInCurrentScope (scopes : List (List (Nat × Nat))) (name : Nat) :
    Option Nat :=
  scopes.reverse.findSome? (fun sc => lookupAssoc sc name)

/-- `Ctx::insert_into_current_scope`: insert into the last scope map
(the source `unwrap`s; an empty stack is its panic, modelled as a
no-op). -/
def insertCurrentScope (scopes : List (List (Nat × Nat))) (n idx : Nat) :
    List (List (Nat × Nat)) :=
  match scopes with
  | [] => []
  | _ => scopes.dropLast ++ [(n, idx) :: scopes.getLastD []]

/-- The label prelude of `Ctx::lower_block`: with `add_block_label` a
fresh `ScopeId` is generated and pushed as a `ScopeKind::Block`. -/
def blockPrelude (s : LCtx) (addLabel : Bool) (label : Option Nat) :
    Option Nat × LCtx :=
  if addLabel then
    (some s.labelGen,
      { s with
        labelGen := s.labelGen + 1,
        labelKinds := s.labelKinds ++ [.block label s.labelGen] })
  else ((none : Option Nat), s)

theorem blockPrelude_params (s : LCtx) (aL : Bool) (lbl : Option Nat) :
    (blockPrelude s aL lbl).2.params = s.params := by
  cases aL <;> simp [blockPrelude]

theorem blockPrelude_scopes (s : LCtx) (aL : Bool) (lbl : Option Nat) :
    (blockPrelude s aL lbl).2.scopes = s.scopes := by
  cases aL <;> simp [blockPrelude]

mutual

/-- `Ctx::lower_expr`: absent syntax allocates `Expr::Missing` without a
range entry; present syntax lowers, allocates, records the range, and
registers a `label_decls` entry when the produced scope id is used. -/
def lowerExpr (s : LCtx) : AOptExpr → Nat × LCtx
  | .noneE => (s.exprs.length, { s with exprs := s.exprs ++ [.Missing] })
  | .someE e =>
    let res := lowerExprRaw s e
    let s1 := res.2
    let id := s1.exprs.length
    let s2 := { s1 with
      exprs := s1.exprs ++ [res.1.1],
      exprRanges := s1.exprRanges ++ [(id, exprRange e)] }
    match res.1.2 with
    | some sid =>
      if s2.labelUsages.any (fun p => p.1 == sid) then
        (id, { s2 with labelDecls := s2.labelDecls ++ [(sid, id)] })
      else (id, s2)
    | none => (id, s2)
termination_by x => sizeOf x

/-- `Ctx::lower_expr_raw` (with `lower_var_ref`, `lower_int_literal`,
`lower_if`, `lower_while`, `lower_lambda` with `allow_extern = false`,
and `lower_comptime` inlined at their single call sites). -/
def lowerExprRaw (s : LCtx) : AExpr → (LExpr × Option Nat) × LCtx
  | .varRef range name =>
    match name with
    | none => ((.Missing, none), s)
    | some n =>
      match lookUpInCurrentScope s.scopes n with
      | some d => ((.Local d, none), s)
      | none =>
        match lookupAssoc s.params n with
        | some (idx, prange) => ((.Param idx prange, none), s)
        | none =>
          if s.index.any (fun m => m == n) then ((.LocalGlobal n range, none), s)
          else if s.primitives.any (fun m => m == n) then ((.PrimitiveTy n, none), s)
          else
            ((.Missing, none),
              { s with diagnostics :=
                  s.diagnostics ++ [⟨.UndefinedRef n, range⟩] })
  | .intLiteral range text =>
    match text with
    | none => ((.Missing, none), s)
    | some t =>
      match lowerIntLiteralVal t with
      | some v => ((.IntLiteral v, none), s)
      | none =>
        ((.Missing, none),
          { s with diagnostics :=
              s.diagnostics ++ [⟨.OutOfRangeIntLiteral, range⟩] })
  | .block _ label stmts tail => lowerBlockCore s true label stmts tail
  | .ifExpr _ cond body els =>
    let rc := lowerExpr s cond
    let rb := lowerCondBody rc.2 body
    match els with
    | .noneB => ((.If rc.1 rb.1 none, none), rb.2)
    | .someB ebody =>
      let re := lowerExpr rb.2 ebody
      ((.If rc.1 rb.1 (some re.1), none), re.2)
  | .whileExpr _ label cond body =>
    let labelId := s.labelGen
    let s1 := { s with
      labelGen := s.labelGen + 1,
      labelKinds := s.labelKinds ++ [.loop label labelId] }
    let rc :=
      match cond with
      | .noneE => ((none : Option Nat), s1)
      | .someE c =>
        let r := lowerExpr s1 (.someE c)
        (some r.1, r.2)
    let rb := lowerCondBody rc.2 body
    ((.While rc.1 rb.1, some labelId), rb.2)
  | .lambda _ params paramsRange returnTy foreignTok body =>
    let oldLabels := s.labelKinds
    let s0 := { s with labelKinds := ([] : List ScopeKind) }
    let rp := lowerParams s0 0 params
    let rr :=
      match returnTy with
      | .noneE => ((none : Option Nat), rp.2)
      | .someE r =>
        let t := lowerExpr rp.2 (.someE r)
        (some t.1, t.2)
    let s2 :=
      match foreignTok with
      | some erange =>
        { rr.2 with diagnostics :=
            rr.2.diagnostics ++ [(⟨.NonGlobalExtern, erange⟩ : LoweringDiagnostic)] }
      | none => rr.2
    let oldParams := s2.params
    let oldScopes := s2.scopes
    let s3 := { s2 with params := rp.1.2, scopes := ([] : List (List (Nat × Nat))) }
    let rbody := lowerExpr s3 body
    let s4 := { rbody.2 with
      params := oldParams, scopes := oldScopes, labelKinds := oldLabels }
    ((.Lambda s4.lambdas.length, none),
      { s4 with lambdas :=
          s4.lambdas ++
            [(⟨rp.1.1, paramsRange, rr.1, rbody.1, foreignTok.isSome⟩ : LLambda)] })
  | .comptime _ body =>
    let oldParams := s.params
    let oldScopes := s.scopes
    let s1 := { s with
      params := ([] : List (Nat × Nat × TextRange)),
      scopes := ([] : List (List (Nat × Nat))) }
    let rbody := lowerExpr s1 body
    let s2 := { rbody.2 with params := oldParams, scopes := oldScopes }
    ((.Comptime s2.comptimes.length, none),
      { s2 with comptimes := s2.comptimes ++ [(⟨rbody.1⟩ : LComptime)] })
termination_by e => sizeOf e

/-- The `if let Some(ast::Expr::Block(body)) = ..` bodies of `lower_if`
and `lower_while`: a block body is lowered without a block label and
allocated with the block's range; anything else allocates
`Expr::Missing` (without a range entry). -/
def lowerCondBody (s : LCtx) : AOptExpr → Nat × LCtx
  | .someE (.block r lbl stmts tail) =>
    let rb := lowerBlockCore s false lbl stmts tail
    let id := rb.2.exprs.length
    (id, { rb.2 with
      exprs := rb.2.exprs ++ [rb.1.1],
      exprRanges := rb.2.exprRanges ++ [(id, r)] })
  | _ => (s.exprs.length, { s with exprs := s.exprs ++ [.Missing] })
termination_by x => sizeOf x

/-- `Ctx::lower_block`.  With `add_block_label` a fresh `ScopeId` is
pushed as a `ScopeKind::Block`; a child scope is pushed for the
statements and popped afterwards. -/
def lowerBlockCore (s : LCtx) (addLabel : Bool) (label : Option Nat)
    (stmts : AStmtList) (tail : AOptExpr) : (LExpr × Option Nat) × LCtx :=
  let h := blockPrelude s addLabel label
  let s2 := { h.2 with scopes := h.2.scopes ++ [([] : List (Nat × Nat))] }
  let rs := lowerStmts s2 stmts
  let rt :=
    match tail with
    | .noneE => ((none : Option Nat), rs.2)
    | .someE t =>
      let r := lowerExpr rs.2 (.someE t)
      (some r.1, r.2)
  ((.Block rs.1 rt.1, h.1), { rt.2 with scopes := rt.2.scopes.dropLast })
termination_by sizeOf stmts + sizeOf tail
decreasing_by
  all_goals simp_wf
  all_goals have h1 := optExpr_sizeOf_pos tail
  all_goals have h2 := stmtList_sizeOf_pos stmts
  all_goals omega

/-- The statement loop of `lower_block`: each lowered statement is
allocated, and a `Break`/`Continue` with a resolved label records a
`label_usages` entry for its scope id. -/
def lowerStmts (s : LCtx) : AStmtList → List Nat × LCtx
  | .nil => ([], s)
  | .cons st rest =>
    let r1 := lowerStmt s st
    let stmtId := r1.2.stmts.length
    let s1 := { r1.2 with stmts := r1.2.stmts ++ [r1.1] }
    let s2 :=
      match r1.1 with
      | .Break (some lid) _ _ =>
        { s1 with labelUsages := s1.labelUsages ++ [(lid, stmtId)] }
      | .Continue (some lid) _ =>
        { s1 with labelUsages := s1.labelUsages ++ [(lid, stmtId)] }
      | _ => s1
    let rr := lowerStmts s2 rest
    (stmtId :: rr.1, rr.2)
termination_by l => sizeOf l

/-- `Ctx::lower_stmt` (with `lower_local_define`, `lower_return`,
`lower_break`, `lower_continue` inlined). -/
def lowerStmt (s : LCtx) : AStmt → LStmt × LCtx
  | .exprStmt _ e =>
    let r := lowerExpr s e
    (.Expr r.1, r.2)
  | .define range mtb name ty value =>
    let rty :=
      match ty with
      | .noneE => ((none : Option Nat), s)
      | .someE t =>
        let r := lowerExpr s (.someE t)
        (some r.1, r.2)
    let rv := lowerExpr rty.2 value
    let id := rv.2.localDefs.length
    let s1 := { rv.2 with localDefs := rv.2.localDefs ++ [⟨mtb, rty.1, rv.1, range⟩] }
    let s2 :=
      match name with
      | some n => { s1 with scopes := insertCurrentScope s1.scopes n id }
      | none => s1
    (.LocalDef id, s2)
  | .ret range value =>
    let label := lowerReturnLabel s.labelKinds
    let rv :=
      match value with
      | .noneE => ((none : Option Nat), s)
      | .someE v =>
        let r := lowerExpr s (.someE v)
        (some r.1, r.2)
    (.Break label rv.1 range, rv.2)
  | .brk range label value =>
    let rl := resolveLabel s.labelKinds range label false
    let s1 := { s with diagnostics := s.diagnostics ++ rl.2 }
    let rv :=
      match value with
      | .noneE => ((none : Option Nat), s1)
      | .someE v =>
        let r := lowerExpr s1 (.someE v)
        (some r.1, r.2)
    (.Break rl.1 rv.1 range, rv.2)
  | .cont range label =>
    let rl := resolveLabel s.labelKinds range label true
    (.Continue rl.1 range, { s with diagnostics := s.diagnostics ++ rl.2 })
termination_by st => sizeOf st

/-- The parameter loop of `lower_lambda`: produces the `params` vector
and the `param_keys` map (later inserts shadow earlier ones, so later
entries are placed in front).  Each annotation is lowered with
`lower_expr` (a missing annotation allocates `Expr::Missing`). -/
def lowerParams (s : LCtx) (idx : Nat) :
    AParamList → (List (Option Nat × Nat) × List (Nat × Nat × TextRange)) × LCtx
  | .nil => (([], []), s)
  | .cons prange pname pty rest =>
    let rt := lowerExpr s pty
    let rr := lowerParams rt.2 (idx + 1) rest
    (((pname, rt.1) :: rr.1.1,
      match pname with
      | some k => rr.1.2 ++ [(k, idx, prange)]
      | none => rr.1.2), rr.2)
termination_by pl => sizeOf pl

end

/-- `Bodies::range_for_expr`: `self.expr_ranges[expr]`.  Indexing an
`ArenaMap` at an absent key panics; the lookup result `none` models that
panic. -/
def rangeForExpr (s : LCtx) (e : Nat) : Option TextRange :=
  lookupAssoc s.exprRanges e

/-- `Ctx::new`: empty bodies, one empty scope, empty label stack. -/
def initialCtx (index primitives : List Nat) : LCtx where
  localDefs := []
  stmts := []
  exprs := []
  exprRanges := []
  labelDecls := []
  labelUsages := []
  lambdas := []
  comptimes := []
  diagnostics := []
  scopes := [[]]
  labelKinds := []
  labelGen := 0
  params := []
  index := index
  primitives := primitives

/-- C8 counterexample: lowering the block `{ foo := ; }` (a local
definition whose value expression is absent) allocates `Expr::Missing`
as expression id 0 with no `expr_ranges` entry, so
`bodies.range_for_expr(0)` indexes an `ArenaMap` at an absent key and
panics (modelled as `none`): the range lookup is not defined for every
allocated expression id. -/
theorem range_for_missing_counterexample :
    rangeForExpr
      (lowerExpr (initialCtx [] [])
        (.someE (.block ⟨0, 10⟩ none
          (.cons (.define ⟨2, 8⟩ true (some 5) .noneE .noneE) .nil) .noneE))).2
      0 = none ∧
    (lowerExpr (initialCtx [] [])
        (.someE (.block ⟨0, 10⟩ none
          (.cons (.define ⟨2, 8⟩ true (some 5) .noneE .noneE) .nil) .noneE))).2.exprs.get?
      0 = some .Missing := by
  simp [lowerExpr, lowerExprRaw, lowerBlockCore, blockPrelude, lowerStmts,
    lowerStmt, initialCtx, insertCurrentScope, rangeForExpr, lookupAssoc,
    exprRange]

theorem insertCurrentScope_dropLast (sc : List (List (Nat × Nat))) (n i : Nat) :
    (insertCurrentScope sc n i).dropLast = sc.dropLast := by
  cases sc with
  | nil => rfl
  | cons a t => simp [insertCurrentScope]

theorem insertCurrentScope_length (sc : List (List (Nat × Nat))) (n i : Nat) :
    (insertCurrentScope sc n i).length = sc.length := by
  cases sc with
  | nil => rfl
  | cons a t => simp [insertCurrentScope]

mutual

/-- `lower_expr` leaves the parameter map and the scope stack of the
context unchanged. -/
theorem lowerExpr_ps (s : LCtx) (x : AOptExpr) :
    (lowerExpr s x).2.params = s.params ∧ (lowerExpr s x).2.scopes = s.scopes := by
  cases x with
  | noneE => simp [lowerExpr]
  | someE e =>
    have ih := lowerExprRaw_ps s e
    simp only [lowerExpr]
    split
    · split
      all_goals constructor
      all_goals first | trivial | exact ih.1 | exact ih.2
    · constructor
      all_goals first | trivial | exact ih.1 | exact ih.2
termination_by sizeOf x

/-- `lower_expr_raw` leaves the parameter map and the scope stack
unchanged (lambdas and comptime blocks restore what they replace). -/
theorem lowerExprRaw_ps (s : LCtx) (e : AExpr) :
    (lowerExprRaw s e).2.params = s.params ∧
      (lowerExprRaw s e).2.scopes = s.scopes := by
  cases e with
  | varRef r nm =>
    cases nm with
    | none => simp [lowerExprRaw]
    | some n =>
      simp only [lowerExprRaw]
      repeat' split
      all_goals constructor
      all_goals trivial
  | intLiteral r t =>
    cases t with
    | none => simp [lowerExprRaw]
    | some tx =>
      simp only [lowerExprRaw]
      repeat' split
      all_goals constructor
      all_goals trivial
  | block r lbl stmts tail =>
    simp only [lowerExprRaw]
    exact lowerBlockCore_ps s true lbl stmts tail
  | ifExpr r cond body els =>
    have ih1 := lowerExpr_ps s cond
    have ih2 := lowerCondBody_ps (lowerExpr s cond).2 body
    cases els with
    | noneB =>
      simp only [lowerExprRaw]
      constructor
      all_goals first
        | trivial
        | exact ih2.1.trans ih1.1
        | exact ih2.2.trans ih1.2
    | someB ebody =>
      have ih3 := lowerExpr_ps (lowerCondBody (lowerExpr s cond).2 body).2 ebody
      simp only [lowerExprRaw]
      constructor
      all_goals first
        | trivial
        | exact (ih3.1.trans ih2.1).trans ih1.1
        | exact (ih3.2.trans ih2.2).trans ih1.2
  | whileExpr r lbl cond body =>
    cases cond with
    | noneE =>
      have ih2 := lowerCondBody_ps
        { s with labelGen := s.labelGen + 1,
                 labelKinds := s.labelKinds ++ [.loop lbl s.labelGen] } body
      simp only [lowerExprRaw]
      constructor
      all_goals first | trivial | exact ih2.1 | exact ih2.2
    | someE c =>
      have ih1 := lowerExpr_ps
        { s with labelGen := s.labelGen + 1,
                 labelKinds := s.labelKinds ++ [.loop lbl s.labelGen] } (.someE c)
      have ih2 := lowerCondBody_ps
        (lowerExpr
          { s with labelGen := s.labelGen + 1,
                   labelKinds := s.labelKinds ++ [.loop lbl s.labelGen] }
          (.someE c)).2 body
      simp only [lowerExprRaw]
      constructor
      all_goals first
        | trivial
        | exact ih2.1.trans ih1.1
        | exact ih2.2.trans ih1.2
  | lambda r params paramsRange returnTy foreignTok body =>
    have ihp := lowerParams_ps { s with labelKinds := ([] : List ScopeKind) } 0 params
    cases returnTy with
    | noneE =>
      cases foreignTok with
      | none =>
        simp only [lowerExprRaw]
        constructor
        all_goals first
          | trivial
          | (show _ = s.params; rw [ihp.1])
          | (show _ = s.scopes; rw [ihp.2])
      | some erange =>
        simp only [lowerExprRaw]
        constructor
        all_goals first
          | trivial
          | (show _ = s.params; rw [ihp.1])
          | (show _ = s.scopes; rw [ihp.2])
    | someE rty =>
      have ihr := lowerExpr_ps
        (lowerParams { s with labelKinds := ([] : List ScopeKind) } 0 params).2
        (.someE rty)
      cases foreignTok with
      | none =>
        simp only [lowerExprRaw]
        constructor
        all_goals first
          | trivial
          | (show _ = s.params; rw [ihr.1, ihp.1])
          | (show _ = s.scopes; rw [ihr.2, ihp.2])
      | some erange =>
        simp only [lowerExprRaw]
        constructor
        all_goals first
          | trivial
          | (show _ = s.params; rw [ihr.1, ihp.1])
          | (show _ = s.scopes; rw [ihr.2, ihp.2])
  | comptime r body => simp [lowerExprRaw]
termination_by sizeOf e

/-- The `if`/`while` body helper leaves the parameter map and the scope
stack unchanged. -/
theorem lowerCondBody_ps (s : LCtx) (x : AOptExpr) :
    (lowerCondBody s x).2.params = s.params ∧
      (lowerCondBody s x).2.scopes = s.scopes := by
  cases x with
  | noneE => simp [lowerCondBody]
  | someE e =>
    cases e with
    | block r lbl stmts tail =>
      have ih := lowerBlockCore_ps s false lbl stmts tail
      simp only [lowerCondBody]
      constructor
      all_goals first | trivial | exact ih.1 | exact ih.2
    | varRef r nm => simp [lowerCondBody]
    | intLiteral r t => simp [lowerCondBody]
    | ifExpr r c b el => simp [lowerCondBody]
    | whileExpr r l c b => simp [lowerCondBody]
    | lambda r p pr rt ft b => simp [lowerCondBody]
    | comptime r b => simp [lowerCondBody]
termination_by sizeOf x

/-- `lower_block` restores the scope stack (its child scope is popped)
and leaves the parameter map unchanged. -/
theorem lowerBlockCore_ps (s : LCtx) (aL : Bool) (lbl : Option Nat)
    (stmts : AStmtList) (tail : AOptExpr) :
    (lowerBlockCore s aL lbl stmts tail).2.params = s.params ∧
      (lowerBlockCore s aL lbl stmts tail).2.scopes = s.scopes := by
  have ihs := lowerStmts_ps
    { (blockPrelude s aL lbl).2 with
      scopes := (blockPrelude s aL lbl).2.scopes ++ [([] : List (Nat × Nat))] }
    stmts
  cases tail with
  | noneE =>
    simp only [lowerBlockCore]
    constructor
    · show _ = s.params
      rw [ihs.1]
      exact blockPrelude_params s aL lbl
    · show _ = s.scopes
      have h2 := ihs.2.1
      simp only [List.dropLast_concat] at h2
      rw [h2]
      exact blockPrelude_scopes s aL lbl
  | someE t =>
    have ihe := lowerExpr_ps
      (lowerStmts
        { (blockPrelude s aL lbl).2 with
          scopes := (blockPrelude s aL lbl).2.scopes ++ [([] : List (Nat × Nat))] }
        stmts).2 (.someE t)
    simp only [lowerBlockCore]
    constructor
    · show _ = s.params
      rw [ihe.1, ihs.1]
      exact blockPrelude_params s aL lbl
    · show _ = s.scopes
      rw [ihe.2]
      have h2 := ihs.2.1
      simp only [List.dropLast_concat] at h2
      rw [h2]
      exact blockPrelude_scopes s aL lbl
termination_by sizeOf stmts + sizeOf tail
decreasing_by
  all_goals simp_wf
  all_goals try omega
  all_goals try (have h1 := optExpr_sizeOf_pos tail; omega)
  all_goals (have h2 := stmtList_sizeOf_pos stmts; omega)

/-- The statement loop preserves the parameter map and everything of the
scope stack except possibly the innermost scope map. -/
theorem lowerStmts_ps (s : LCtx) (l : AStmtList) :
    (lowerStmts s l).2.params = s.params ∧
      (lowerStmts s l).2.scopes.dropLast = s.scopes.dropLast ∧
      (lowerStmts s l).2.scopes.length = s.scopes.length := by
  cases l with
  | nil => simp [lowerStmts]
  | cons st rest =>
    have ih1 := lowerStmt_ps s st
    have ih2 := fun z => lowerStmts_ps z rest
    simp only [lowerStmts]
    split
    all_goals refine ⟨?_, ?_, ?_⟩
    all_goals first
      | (show _ = s.params; rw [(ih2 _).1]; exact ih1.1)
      | (show _ = s.scopes.dropLast; rw [(ih2 _).2.1]; exact ih1.2.1)
      | (show _ = s.scopes.length; rw [(ih2 _).2.2]; exact ih1.2.2)
termination_by sizeOf l

/-- A single lowered statement preserves the parameter map and
everything of the scope stack except possibly the innermost scope map
(a `:=` definition inserts its name there). -/
theorem lowerStmt_ps (s : LCtx) (st : AStmt) :
    (lowerStmt s st).2.params = s.params ∧
      (lowerStmt s st).2.scopes.dropLast = s.scopes.dropLast ∧
      (lowerStmt s st).2.scopes.length = s.scopes.length := by
  cases st with
  | exprStmt r e =>
    have ih := lowerExpr_ps s e
    simp only [lowerStmt]
    exact ⟨ih.1, by rw [ih.2], by rw [ih.2]⟩
  | define r mtb name ty value =>
    cases ty with
    | noneE =>
      have ihv := lowerExpr_ps s value
      cases name with
      | none =>
        simp only [lowerStmt]
        exact ⟨ihv.1, by rw [ihv.2], by rw [ihv.2]⟩
      | some n =>
        simp only [lowerStmt]
        refine ⟨ihv.1, ?_, ?_⟩
        · show (insertCurrentScope _ _ _).dropLast = _
          rw [insertCurrentScope_dropLast, ihv.2]
        · show (insertCurrentScope _ _ _).length = _
          rw [insertCurrentScope_length, ihv.2]
    | someE t =>
      have iht := lowerExpr_ps s (.someE t)
      have ihv := lowerExpr_ps (lowerExpr s (.someE t)).2 value
      cases name with
      | none =>
        simp only [lowerStmt]
        exact ⟨ihv.1.trans iht.1, by rw [ihv.2, iht.2], by rw [ihv.2, iht.2]⟩
      | some n =>
        simp only [lowerStmt]
        refine ⟨ihv.1.trans iht.1, ?_, ?_⟩
        · show (insertCurrentScope _ _ _).dropLast = _
          rw [insertCurrentScope_dropLast, ihv.2, iht.2]
        · show (insertCurrentScope _ _ _).length = _
          rw [insertCurrentScope_length, ihv.2, iht.2]
  | ret r value =>
    cases value with
    | noneE => simp [lowerStmt]
    | someE v =>
      have ih := lowerExpr_ps s (.someE v)
      simp only [lowerStmt]
      exact ⟨ih.1, by rw [ih.2], by rw [ih.2]⟩
  | brk r label value =>
    cases value with
    | noneE => simp [lowerStmt]
    | someE v =>
      have ih := lowerExpr_ps
        { s with diagnostics :=
            s.diagnostics ++ (resolveLabel s.labelKinds r label false).2 } (.someE v)
      simp only [lowerStmt]
      exact ⟨ih.1, by rw [ih.2], by rw [ih.2]⟩
  | cont r label => simp [lowerStmt]
termination_by sizeOf st

/-- The parameter loop leaves the context parameter map and scope stack
unchanged (it only reads them while lowering the annotations). -/
theorem lowerParams_ps (s : LCtx) (idx : Nat) (pl : AParamList) :
    (lowerParams s idx pl).2.params = s.params ∧
      (lowerParams s idx pl).2.scopes = s.scopes := by
  cases pl with
  | nil => simp [lowerParams]
  | cons pr pn pt rest =>
    have ih1 := lowerExpr_ps s pt
    have ih2 := lowerParams_ps (lowerExpr s pt).2 (idx + 1) rest
    cases pn with
    | none =>
      simp only [lowerParams]
      exact ⟨ih2.1.trans ih1.1, ih2.2.trans ih1.2⟩
    | some k =>
      simp only [lowerParams]
      exact ⟨ih2.1.trans ih1.1, ih2.2.trans ih1.2⟩
termination_by sizeOf pl

end

/-- The `labelKinds` stack is also restored by a lambda (`lower_lambda`
saves `old_label_kinds` and writes it back). -/
theorem lowerExprRaw_lambda_labelKinds (s : LCtx) (r pr : TextRange)
    (ps : AParamList) (rt : AOptExpr) (ft : Option TextRange) (body : AOptExpr) :
    (lowerExprRaw s (.lambda r ps pr rt ft body)).2.labelKinds = s.labelKinds := by
  cases rt <;> cases ft <;> (simp only [lowerExprRaw]; try rfl)

/-- C5: lambda and comptime bodies are lowered with the enclosing
parameter map and scope stack cleared (no implicit capture), their
references to enclosing locals/parameters produce `UndefinedRef` and
lower to `Missing`, and on exit the enclosing parameter map, scope stack
(and, for lambdas, label stack) are restored unchanged.  Parts (1)/(2)
state the restoration for arbitrary lambdas/comptimes; parts (3)/(4)
lower a body that is a bare reference to an identifier `n` not defined
at file scope: whatever `s.scopes` and `s.params` contain (in particular
when they define `n`), the reference does not resolve, an `UndefinedRef`
diagnostic is emitted, and the body expression is `Missing`. -/
theorem lambda_comptime_spec (s : LCtx) (r pr rb : TextRange)
    (ps : AParamList) (rt : AOptExpr) (ft : Option TextRange)
    (body : AOptExpr) (n : Nat)
    (h1 : s.index.any (fun m => m == n) = false)
    (h2 : s.primitives.any (fun m => m == n) = false) :
    ((lowerExprRaw s (.lambda r ps pr rt ft body)).2.params = s.params ∧
     (lowerExprRaw s (.lambda r ps pr rt ft body)).2.scopes = s.scopes ∧
     (lowerExprRaw s (.lambda r ps pr rt ft body)).2.labelKinds = s.labelKinds) ∧
    ((lowerExprRaw s (.comptime r body)).2.params = s.params ∧
     (lowerExprRaw s (.comptime r body)).2.scopes = s.scopes) ∧
    ((lowerExprRaw s
        (.lambda r .nil pr .noneE none (.someE (.varRef rb (some n))))).2.diagnostics
        = s.diagnostics ++ [⟨.UndefinedRef n, rb⟩] ∧
     (lowerExprRaw s
        (.lambda r .nil pr .noneE none
          (.someE (.varRef rb (some n))))).2.exprs.get? s.exprs.length
        = some .Missing) ∧
    ((lowerExprRaw s
        (.comptime r (.someE (.varRef rb (some n))))).2.diagnostics
        = s.diagnostics ++ [⟨.UndefinedRef n, rb⟩] ∧
     (lowerExprRaw s
        (.comptime r (.someE (.varRef rb (some n))))).2.exprs.get? s.exprs.length
        = some .Missing) := by
  have hl := lowerExprRaw_ps s (.lambda r ps pr rt ft body)
  have hc := lowerExprRaw_ps s (.comptime r body)
  refine ⟨⟨hl.1, hl.2, lowerExprRaw_lambda_labelKinds s r pr ps rt ft body⟩,
    ⟨hc.1, hc.2⟩, ?_, ?_⟩
  · constructor
    · simp [lowerExprRaw, lowerExpr, lowerParams, lookUpInCurrentScope,
        lookupAssoc, h1, h2]
    · simp [lowerExprRaw, lowerExpr, lowerParams, lookUpInCurrentScope,
        lookupAssoc, h1, h2, List.get?_eq_getElem?]
  · constructor
    · simp [lowerExprRaw, lowerExpr, lookUpInCurrentScope, lookupAssoc, h1, h2]
    · simp [lowerExprRaw, lowerExpr, lookUpInCurrentScope, lookupAssoc, h1, h2,
        List.get?_eq_getElem?]

/-- Witness for C5 at a context whose scope stack and parameter map both
define the identifier 7: inside the lambda/comptime it still does not
resolve. -/
theorem lambda_comptime_spec_witness :
    (({ initialCtx [] [] with
        scopes := [[(7, 0)]],
        params := [(7, 0, ⟨0, 1⟩)] } : LCtx).index.any (fun m => m == 7)
      = false) ∧
    ((lowerExprRaw
        { initialCtx [] [] with
          scopes := [[(7, 0)]], params := [(7, 0, ⟨0, 1⟩)] }
        (.lambda ⟨0, 9⟩ .nil ⟨1, 2⟩ .noneE none
          (.someE (.varRef ⟨3, 4⟩ (some 7))))).2.diagnostics
      = ({ initialCtx [] [] with
            scopes := [[(7, 0)]],
            params := [(7, 0, ⟨0, 1⟩)] } : LCtx).diagnostics
          ++ [⟨.UndefinedRef 7, ⟨3, 4⟩⟩]) := by
  have h := lambda_comptime_spec
    { initialCtx [] [] with scopes := [[(7, 0)]], params := [(7, 0, ⟨0, 1⟩)] }
    ⟨0, 9⟩ ⟨1, 2⟩ ⟨3, 4⟩ .nil .noneE none .noneE 7 (by rfl) (by rfl)
  exact ⟨rfl, h.2.2.1.1⟩

/-- A text range that lies within a source text of length `L`. -/
def rangeWithin (L : Nat) (r : TextRange) : Bool :=
  decide (r.start ≤ r.stop) && decide (r.stop ≤ L)

mutual

/-- Every range in an optional expression lies within the source. -/
def wfOE (L : Nat) : AOptExpr → Bool
  | .noneE => true
  | .someE e => wfE L e

/-- Every range in an expression tree lies within the source. -/
def wfE (L : Nat) : AExpr → Bool
  | .varRef r _ => rangeWithin L r
  | .intLiteral r _ => rangeWithin L r
  | .block r _ stmts tail => rangeWithin L r && wfSL L stmts && wfOE L tail
  | .ifExpr r c b el => rangeWithin L r && wfOE L c && wfOE L b && wfEl L el
  | .whileExpr r _ c b => rangeWithin L r && wfOE L c && wfOE L b
  | .lambda r ps pr rt ft b =>
      rangeWithin L r && rangeWithin L pr && wfPL L ps && wfOE L rt &&
        (match ft with | some fr => rangeWithin L fr | none => true) && wfOE L b
  | .comptime r b => rangeWithin L r && wfOE L b

/-- Every range in an `else` branch lies within the source. -/
def wfEl (L : Nat) : AElse → Bool
  | .noneB => true
  | .someB b => wfOE L b

/-- Every range in a statement list lies within the source. -/
def wfSL (L : Nat) : AStmtList → Bool
  | .nil => true
  | .cons st rest => wfS L st && wfSL L rest

/-- Every range in a statement lies within the source. -/
def wfS (L : Nat) : AStmt → Bool
  | .exprStmt r e => rangeWithin L r && wfOE L e
  | .define r _ _ ty v => rangeWithin L r && wfOE L ty && wfOE L v
  | .ret r v => rangeWithin L r && wfOE L v
  | .brk r _ v => rangeWithin L r && wfOE L v
  | .cont r _ => rangeWithin L r

/-- Every range in a parameter list lies within the source. -/
def wfPL (L : Nat) : AParamList → Bool
  | .nil => true
  | .cons pr _ pt rest => rangeWithin L pr && wfOE L pt && wfPL L rest

end

/-- The range-table invariant: every recorded range belongs to an
already-allocated expression and lies within the source. -/
def rangesOk (L : Nat) (s : LCtx) : Prop :=
  ∀ p ∈ s.exprRanges, p.1 < s.exprs.length ∧ rangeWithin L p.2 = true

theorem exprRange_within (L : Nat) (e : AExpr) (h : wfE L e = true) :
    rangeWithin L (exprRange e) = true := by
  cases e <;> (simp only [wfE, Bool.and_eq_true] at h; simp only [exprRange]; tauto)

theorem lookupAssoc_append_fresh {α : Type} (l : List (Nat × α)) (k : Nat) (v : α)
    (h : ∀ p ∈ l, p.1 ≠ k) : lookupAssoc (l ++ [(k, v)]) k = some v := by
  induction l with
  | nil => simp [lookupAssoc]
  | cons a t ih =>
    have ha : (a.1 == k) = false :=
      beq_eq_false_iff_ne.mpr (h a (List.mem_cons_self a t))
    rw [List.cons_append]
    show lookupAssoc (a :: (t ++ [(k, v)])) k = some v
    unfold lookupAssoc
    rw [List.find?_cons_of_neg _ (by simp [ha])]
    exact ih (fun p hp => h p (List.mem_cons_of_mem a hp))

theorem rangesOk_push (L : Nat) (er : List (Nat × TextRange)) (ex : List LExpr)
    (v : LExpr) (r : TextRange)
    (h : ∀ p ∈ er, p.1 < ex.length ∧ rangeWithin L p.2 = true)
    (hr : rangeWithin L r = true) :
    ∀ p ∈ er ++ [(ex.length, r)],
      p.1 < (ex ++ [v]).length ∧ rangeWithin L p.2 = true := by
  intro p hp
  rcases List.mem_append.mp hp with h1 | h1
  · obtain ⟨ha, hb⟩ := h p h1
    refine ⟨?_, hb⟩
    simp only [List.length_append, List.length_cons, List.length_nil]
    omega
  · have h1' : p = (ex.length, r) := by simpa using h1
    subst h1'
    refine ⟨?_, hr⟩
    simp only [List.length_append, List.length_cons, List.length_nil]
    omega

theorem le_length_append_one {α : Type} (a b : List α) (v : α)
    (h : a.length ≤ b.length) : a.length ≤ (b ++ [v]).length := by
  simp only [List.length_append, List.length_cons, List.length_nil]
  omega

theorem blockPrelude_exprs (s : LCtx) (aL : Bool) (lbl : Option Nat) :
    (blockPrelude s aL lbl).2.exprs = s.exprs := by
  cases aL <;> simp [blockPrelude]

theorem blockPrelude_exprRanges (s : LCtx) (aL : Bool) (lbl : Option Nat) :
    (blockPrelude s aL lbl).2.exprRanges = s.exprRanges := by
  cases aL <;> simp [blockPrelude]

mutual

/-- `lower_expr` preserves the range-table invariant and never discards
expressions. -/
theorem lowerExpr_rng (L : Nat) (s : LCtx) (x : AOptExpr)
    (hs : rangesOk L s) (hw : wfOE L x = true) :
    rangesOk L (lowerExpr s x).2 ∧
      s.exprs.length ≤ (lowerExpr s x).2.exprs.length := by
  cases x with
  | noneE =>
    simp only [lowerExpr]
    refine ⟨fun p hp => ?_, le_length_append_one _ _ _ (Nat.le_refl _)⟩
    obtain ⟨ha, hb⟩ := hs p hp
    exact ⟨Nat.lt_of_lt_of_le ha (by simp), hb⟩
  | someE e =>
    have hw' : wfE L e = true := by simpa [wfOE] using hw
    have ih := lowerExprRaw_rng L s e hs hw'
    have hre := exprRange_within L e hw'
    simp only [lowerExpr]
    repeat' split
    all_goals exact ⟨rangesOk_push L _ _ _ _ ih.1 hre,
      le_length_append_one _ _ _ ih.2⟩
termination_by sizeOf x

/-- `lower_expr_raw` preserves the range-table invariant and never
discards expressions. -/
theorem lowerExprRaw_rng (L : Nat) (s : LCtx) (e : AExpr)
    (hs : rangesOk L s) (hw : wfE L e = true) :
    rangesOk L (lowerExprRaw s e).2 ∧
      s.exprs.length ≤ (lowerExprRaw s e).2.exprs.length := by
  cases e with
  | varRef r nm =>
    cases nm with
    | none =>
      simp only [lowerExprRaw]
      exact ⟨hs, Nat.le_refl _⟩
    | some n =>
      simp only [lowerExprRaw]
      repeat' split
      all_goals exact ⟨hs, Nat.le_refl _⟩
  | intLiteral r t =>
    cases t with
    | none =>
      simp only [lowerExprRaw]
      exact ⟨hs, Nat.le_refl _⟩
    | some tx =>
      simp only [lowerExprRaw]
      repeat' split
      all_goals exact ⟨hs, Nat.le_refl _⟩
  | block r lbl stmts tail =>
    have h1 : wfSL L stmts = true := by
      simp only [wfE, Bool.and_eq_true] at hw; tauto
    have h2 : wfOE L tail = true := by
      simp only [wfE, Bool.and_eq_true] at hw; tauto
    simp only [lowerExprRaw]
    exact lowerBlockCore_rng L s true lbl stmts tail hs h1 h2
  | ifExpr r cond body els =>
    have hwc : wfOE L cond = true := by
      simp only [wfE, Bool.and_eq_true] at hw; tauto
    have hwb : wfOE L body = true := by
      simp only [wfE, Bool.and_eq_true] at hw; tauto
    have ih1 := lowerExpr_rng L s cond hs hwc
    have ih2 := lowerCondBody_rng L (lowerExpr s cond).2 body ih1.1 hwb
    cases els with
    | noneB =>
      simp only [lowerExprRaw]
      exact ⟨ih2.1, Nat.le_trans ih1.2 ih2.2⟩
    | someB ebody =>
      have hwe : wfOE L ebody = true := by
        simp only [wfE, wfEl, Bool.and_eq_true] at hw; tauto
      have ih3 := lowerExpr_rng L
        (lowerCondBody (lowerExpr s cond).2 body).2 ebody ih2.1 hwe
      simp only [lowerExprRaw]
      exact ⟨ih3.1, Nat.le_trans ih1.2 (Nat.le_trans ih2.2 ih3.2)⟩
  | whileExpr r lbl cond body =>
    have hwb : wfOE L body = true := by
      simp only [wfE, Bool.and_eq_true] at hw; tauto
    cases cond with
    | noneE =>
      have ih2 := lowerCondBody_rng L
        { s with labelGen := s.labelGen + 1,
                 labelKinds := s.labelKinds ++ [.loop lbl s.labelGen] }
        body hs hwb
      simp only [lowerExprRaw]
      exact ⟨ih2.1, ih2.2⟩
    | someE c =>
      have hwc : wfOE L (.someE c) = true := by
        simp only [wfE, Bool.and_eq_true] at hw; tauto
      have ih1 := lowerExpr_rng L
        { s with labelGen := s.labelGen + 1,
                 labelKinds := s.labelKinds ++ [.loop lbl s.labelGen] }
        (.someE c) hs hwc
      have ih2 := lowerCondBody_rng L
        (lowerExpr
          { s with labelGen := s.labelGen + 1,
                   labelKinds := s.labelKinds ++ [.loop lbl s.labelGen] }
          (.someE c)).2 body ih1.1 hwb
      simp only [lowerExprRaw]
      exact ⟨ih2.1, Nat.le_trans ih1.2 ih2.2⟩
  | lambda r params paramsRange returnTy foreignTok body =>
    have hwp : wfPL L params = true := by
      simp only [wfE, Bool.and_eq_true] at hw; tauto
    have hwb : wfOE L body = true := by
      simp only [wfE, Bool.and_eq_true] at hw; tauto
    have ihp := lowerParams_rng L
      { s with labelKinds := ([] : List ScopeKind) } 0 params hs hwp
    cases returnTy with
    | noneE =>
      cases foreignTok with
      | none =>
        have ihb := lowerExpr_rng L
          { (lowerParams { s with labelKinds := ([] : List ScopeKind) } 0
              params).2 with
            params := (lowerParams { s with labelKinds := ([] : List ScopeKind) }
              0 params).1.2,
            scopes := ([] : List (List (Nat × Nat))) } body ihp.1 hwb
        simp only [lowerExprRaw]
        exact ⟨ihb.1, Nat.le_trans ihp.2 ihb.2⟩
      | some erange =>
        have ihb := lowerExpr_rng L
          { { (lowerParams { s with labelKinds := ([] : List ScopeKind) } 0
                params).2 with
              diagnostics :=
                (lowerParams { s with labelKinds := ([] : List ScopeKind) } 0
                  params).2.diagnostics ++
                  [(⟨.NonGlobalExtern, erange⟩ : LoweringDiagnostic)] } with
            params := (lowerParams { s with labelKinds := ([] : List ScopeKind) }
              0 params).1.2,
            scopes := ([] : List (List (Nat × Nat))) } body ihp.1 hwb
        simp only [lowerExprRaw]
        exact ⟨ihb.1, Nat.le_trans ihp.2 ihb.2⟩
    | someE rty =>
      have hwr : wfOE L (.someE rty) = true := by
        simp only [wfE, Bool.and_eq_true] at hw; tauto
      have ihr := lowerExpr_rng L
        (lowerParams { s with labelKinds := ([] : List ScopeKind) } 0 params).2
        (.someE rty) ihp.1 hwr
      cases foreignTok with
      | none =>
        have ihb := lowerExpr_rng L
          { (lowerExpr
              (lowerParams { s with labelKinds := ([] : List ScopeKind) } 0
                params).2 (.someE rty)).2 with
            params := (lowerParams { s with labelKinds := ([] : List ScopeKind) }
              0 params).1.2,
            scopes := ([] : List (List (Nat × Nat))) } body ihr.1 hwb
        simp only [lowerExprRaw]
        exact ⟨ihb.1, Nat.le_trans ihp.2 (Nat.le_trans ihr.2 ihb.2)⟩
      | some erange =>
        have ihb := lowerExpr_rng L
          { { (lowerExpr
                (lowerParams { s with labelKinds := ([] : List ScopeKind) } 0
                  params).2 (.someE rty)).2 with
              diagnostics :=
                (lowerExpr
                  (lowerParams { s with labelKinds := ([] : List ScopeKind) } 0
                    params).2 (.someE rty)).2.diagnostics ++
                  [(⟨.NonGlobalExtern, erange⟩ : LoweringDiagnostic)] } with
            params := (lowerParams { s with labelKinds := ([] : List ScopeKind) }
              0 params).1.2,
            scopes := ([] : List (List (Nat × Nat))) } body ihr.1 hwb
        simp only [lowerExprRaw]
        exact ⟨ihb.1, Nat.le_trans ihp.2 (Nat.le_trans ihr.2 ihb.2)⟩
  | comptime r body =>
    have hwb : wfOE L body = true := by
      simp only [wfE, Bool.and_eq_true] at hw; tauto
    have ihb := lowerExpr_rng L
      { s with
        params := ([] : List (Nat × Nat × TextRange)),
        scopes := ([] : List (List (Nat × Nat))) } body hs hwb
    simp only [lowerExprRaw]
    exact ⟨ihb.1, ihb.2⟩
termination_by sizeOf e

/-- The `if`/`while` body helper preserves the range-table invariant and
never discards expressions. -/
theorem lowerCondBody_rng (L : Nat) (s : LCtx) (x : AOptExpr)
    (hs : rangesOk L s) (hw : wfOE L x = true) :
    rangesOk L (lowerCondBody s x).2 ∧
      s.exprs.length ≤ (lowerCondBody s x).2.exprs.length := by
  cases x with
  | noneE =>
    simp only [lowerCondBody]
    refine ⟨fun p hp => ?_, le_length_append_one _ _ _ (Nat.le_refl _)⟩
    obtain ⟨ha, hb⟩ := hs p hp
    exact ⟨Nat.lt_of_lt_of_le ha (by simp), hb⟩
  | someE e =>
    cases e with
    | block r lbl stmts tail =>
      have hwr : rangeWithin L r = true := by
        simp only [wfOE, wfE, Bool.and_eq_true] at hw; tauto
      have h1 : wfSL L stmts = true := by
        simp only [wfOE, wfE, Bool.and_eq_true] at hw; tauto
      have h2 : wfOE L tail = true := by
        simp only [wfOE, wfE, Bool.and_eq_true] at hw; tauto
      have ih := lowerBlockCore_rng L s false lbl stmts tail hs h1 h2
      simp only [lowerCondBody]
      exact ⟨rangesOk_push L _ _ _ _ ih.1 hwr,
        le_length_append_one _ _ _ ih.2⟩
    | varRef r nm =>
      simp only [lowerCondBody]
      refine ⟨fun p hp => ?_, le_length_append_one _ _ _ (Nat.le_refl _)⟩
      obtain ⟨ha, hb⟩ := hs p hp
      exact ⟨Nat.lt_of_lt_of_le ha (by simp), hb⟩
    | intLiteral r t =>
      simp only [lowerCondBody]
      refine ⟨fun p hp => ?_, le_length_append_one _ _ _ (Nat.le_refl _)⟩
      obtain ⟨ha, hb⟩ := hs p hp
      exact ⟨Nat.lt_of_lt_of_le ha (by simp), hb⟩
    | ifExpr r c b el =>
      simp only [lowerCondBody]
      refine ⟨fun p hp => ?_, le_length_append_one _ _ _ (Nat.le_refl _)⟩
      obtain ⟨ha, hb⟩ := hs p hp
      exact ⟨Nat.lt_of_lt_of_le ha (by simp), hb⟩
    | whileExpr r l c b =>
      simp only [lowerCondBody]
      refine ⟨fun p hp => ?_, le_length_append_one _ _ _ (Nat.le_refl _)⟩
      obtain ⟨ha, hb⟩ := hs p hp
      exact ⟨Nat.lt_of_lt_of_le ha (by simp), hb⟩
    | lambda r p pr rt ft b =>
      simp only [lowerCondBody]
      refine ⟨fun p hp => ?_, le_length_append_one _ _ _ (Nat.le_refl _)⟩
      obtain ⟨ha, hb⟩ := hs p hp
      exact ⟨Nat.lt_of_lt_of_le ha (by simp), hb⟩
    | comptime r b =>
      simp only [lowerCondBody]
      refine ⟨fun p hp => ?_, le_length_append_one _ _ _ (Nat.le_refl _)⟩
      obtain ⟨ha, hb⟩ := hs p hp
      exact ⟨Nat.lt_of_lt_of_le ha (by simp), hb⟩
termination_by sizeOf x

/-- `lower_block` preserves the range-table invariant and never discards
expressions. -/
theorem lowerBlockCore_rng (L : Nat) (s : LCtx) (aL : Bool) (lbl : Option Nat)
    (stmts : AStmtList) (tail : AOptExpr)
    (hs : rangesOk L s) (hw1 : wfSL L stmts = true) :
    wfOE L tail = true →
    rangesOk L (lowerBlockCore s aL lbl stmts tail).2 ∧
      s.exprs.length ≤ (lowerBlockCore s aL lbl stmts tail).2.exprs.length := by
  cases tail with
  | noneE =>
    intro hw2
    have hpre : rangesOk L (blockPrelude s aL lbl).2 := by
      intro p hp
      rw [blockPrelude_exprRanges] at hp
      rw [blockPrelude_exprs]
      exact hs p hp
    have ihs := lowerStmts_rng L
      { (blockPrelude s aL lbl).2 with
        scopes := (blockPrelude s aL lbl).2.scopes ++ [([] : List (Nat × Nat))] }
      stmts hpre hw1
    have h0 : s.exprs.length = (blockPrelude s aL lbl).2.exprs.length := by
      rw [blockPrelude_exprs]
    simp only [lowerBlockCore]
    exact ⟨ihs.1, Nat.le_trans (Nat.le_of_eq h0) ihs.2⟩
  | someE t =>
    intro hw2
    have hpre : rangesOk L (blockPrelude s aL lbl).2 := by
      intro p hp
      rw [blockPrelude_exprRanges] at hp
      rw [blockPrelude_exprs]
      exact hs p hp
    have ihs := lowerStmts_rng L
      { (blockPrelude s aL lbl).2 with
        scopes := (blockPrelude s aL lbl).2.scopes ++ [([] : List (Nat × Nat))] }
      stmts hpre hw1
    have h0 : s.exprs.length = (blockPrelude s aL lbl).2.exprs.length := by
      rw [blockPrelude_exprs]
    have ihe := lowerExpr_rng L
      (lowerStmts
        { (blockPrelude s aL lbl).2 with
          scopes := (blockPrelude s aL lbl).2.scopes ++ [([] : List (Nat × Nat))] }
        stmts).2 (.someE t) ihs.1 hw2
    simp only [lowerBlockCore]
    exact ⟨ihe.1,
      Nat.le_trans (Nat.le_of_eq h0) (Nat.le_trans ihs.2 ihe.2)⟩
termination_by sizeOf stmts + sizeOf tail
decreasing_by
  all_goals simp_wf
  all_goals try omega
  all_goals try (have h1 := optExpr_sizeOf_pos tail; omega)
  all_goals (have h2 := stmtList_sizeOf_pos stmts; omega)

/-- The statement loop preserves the range-table invariant and never
discards expressions. -/
theorem lowerStmts_rng (L : Nat) (s : LCtx) (l : AStmtList)
    (hs : rangesOk L s) (hw : wfSL L l = true) :
    rangesOk L (lowerStmts s l).2 ∧
      s.exprs.length ≤ (lowerStmts s l).2.exprs.length := by
  cases l with
  | nil =>
    simp only [lowerStmts]
    exact ⟨hs, Nat.le_refl _⟩
  | cons st rest =>
    have hw1 : wfS L st = true := by
      simp only [wfSL, Bool.and_eq_true] at hw; tauto
    have hw2 : wfSL L rest = true := by
      simp only [wfSL, Bool.and_eq_true] at hw; tauto
    have ih1 := lowerStmt_rng L s st hs hw1
    have ih2 := fun (lu : List (Nat × Nat)) => lowerStmts_rng L
      { (lowerStmt s st).2 with
        stmts := (lowerStmt s st).2.stmts ++ [(lowerStmt s st).1],
        labelUsages := lu } rest ih1.1 hw2
    simp only [lowerStmts]
    split
    all_goals exact ⟨(ih2 _).1, Nat.le_trans ih1.2 (ih2 _).2⟩
termination_by sizeOf l

/-- A single lowered statement preserves the range-table invariant and
never discards expressions. -/
theorem lowerStmt_rng (L : Nat) (s : LCtx) (st : AStmt)
    (hs : rangesOk L s) (hw : wfS L st = true) :
    rangesOk L (lowerStmt s st).2 ∧
      s.exprs.length ≤ (lowerStmt s st).2.exprs.length := by
  cases st with
  | exprStmt r e =>
    have hwe : wfOE L e = true := by
      simp only [wfS, Bool.and_eq_true] at hw; tauto
    have ih := lowerExpr_rng L s e hs hwe
    simp only [lowerStmt]
    exact ⟨ih.1, ih.2⟩
  | define r mtb name ty value =>
    have hwv : wfOE L value = true := by
      simp only [wfS, Bool.and_eq_true] at hw; tauto
    cases ty with
    | noneE =>
      have ihv := lowerExpr_rng L s value hs hwv
      cases name with
      | none =>
        simp only [lowerStmt]
        exact ⟨ihv.1, ihv.2⟩
      | some n =>
        simp only [lowerStmt]
        exact ⟨ihv.1, ihv.2⟩
    | someE t =>
      have hwt : wfOE L (.someE t) = true := by
        simp only [wfS, Bool.and_eq_true] at hw; tauto
      have iht := lowerExpr_rng L s (.someE t) hs hwt
      have ihv := lowerExpr_rng L (lowerExpr s (.someE t)).2 value iht.1 hwv
      cases name with
      | none =>
        simp only [lowerStmt]
        exact ⟨ihv.1, Nat.le_trans iht.2 ihv.2⟩
      | some n =>
        simp only [lowerStmt]
        exact ⟨ihv.1, Nat.le_trans iht.2 ihv.2⟩
  | ret r value =>
    cases value with
    | noneE =>
      simp only [lowerStmt]
      exact ⟨hs, Nat.le_refl _⟩
    | someE v =>
      have hwv : wfOE L (.someE v) = true := by
        simp only [wfS, Bool.and_eq_true] at hw; tauto
      have ih := lowerExpr_rng L s (.someE v) hs hwv
      simp only [lowerStmt]
      exact ⟨ih.1, ih.2⟩
  | brk r label value =>
    cases value with
    | noneE =>
      simp only [lowerStmt]
      exact ⟨hs, Nat.le_refl _⟩
    | someE v =>
      have hwv : wfOE L (.someE v) = true := by
        simp only [wfS, Bool.and_eq_true] at hw; tauto
      have ih := lowerExpr_rng L
        { s with diagnostics :=
            s.diagnostics ++ (resolveLabel s.labelKinds r label false).2 }
        (.someE v) hs hwv
      simp only [lowerStmt]
      exact ⟨ih.1, ih.2⟩
  | cont r label =>
    simp only [lowerStmt]
    exact ⟨hs, Nat.le_refl _⟩
termination_by sizeOf st

/-- The parameter loop preserves the range-table invariant and never
discards expressions. -/
theorem lowerParams_rng (L : Nat) (s : LCtx) (idx : Nat) (pl : AParamList)
    (hs : rangesOk L s) (hw : wfPL L pl = true) :
    rangesOk L (lowerParams s idx pl).2 ∧
      s.exprs.length ≤ (lowerParams s idx pl).2.exprs.length := by
  cases pl with
  | nil =>
    simp only [lowerParams]
    exact ⟨hs, Nat.le_refl _⟩
  | cons pr pn pt rest =>
    have hw1 : wfOE L pt = true := by
      simp only [wfPL, Bool.and_eq_true] at hw; tauto
    have hw2 : wfPL L rest = true := by
      simp only [wfPL, Bool.and_eq_true] at hw; tauto
    have ih1 := lowerExpr_rng L s pt hs hw1
    have ih2 := lowerParams_rng L (lowerExpr s pt).2 (idx + 1) rest ih1.1 hw2
    cases pn with
    | none =>
      simp only [lowerParams]
      exact ⟨ih2.1, Nat.le_trans ih1.2 ih2.2⟩
    | some k =>
      simp only [lowerParams]
      exact ⟨ih2.1, Nat.le_trans ih1.2 ih2.2⟩
termination_by sizeOf pl

end

/-- C8 (amended): `range_for_expr` is defined only for expression ids
lowered from syntax that is present; `Expr::Missing` ids allocated for
absent syntax have no `expr_ranges` entry and indexing panics (see the
counterexample).  For present syntax the claim holds: starting from a
context whose range table satisfies the invariant `rangesOk` (the real
lowering starts from an empty table) and lowering any expression whose
source ranges lie within a source text of length `L`, the id returned by
`lower_expr` has a defined range lookup, that range is the syntax node's
own range and lies within the source, and the invariant still holds for
every recorded range. -/
theorem range_for_expr_spec (L : Nat) (s : LCtx) (e : AExpr)
    (h1 : rangesOk L s) (h2 : wfE L e = true) :
    rangeForExpr (lowerExpr s (.someE e)).2 (lowerExpr s (.someE e)).1
      = some (exprRange e) ∧
    rangeWithin L (exprRange e) = true ∧
    rangesOk L (lowerExpr s (.someE e)).2 := by
  have ih := lowerExprRaw_rng L s e h1 h2
  have hre := exprRange_within L e h2
  have hfresh : ∀ p ∈ (lowerExprRaw s e).2.exprRanges,
      p.1 ≠ (lowerExprRaw s e).2.exprs.length :=
    fun p hp => Nat.ne_of_lt (ih.1 p hp).1
  refine ⟨?_, hre,
    (lowerExpr_rng L s (.someE e) h1 (by simpa [wfOE] using h2)).1⟩
  simp only [lowerExpr, rangeForExpr]
  repeat' split
  all_goals exact lookupAssoc_append_fresh _ _ _ hfresh

/-- Witness for C8 at the initial context and the expression `foo` at
source offsets 2..8 of a 10-character file: lowering records id 0 with
range 2..8 and the lookup succeeds. -/
theorem range_for_expr_spec_witness :
    rangesOk 10 (initialCtx [] []) ∧
    wfE 10 (.varRef ⟨2, 8⟩ none) = true ∧
    rangeForExpr
      (lowerExpr (initialCtx [] []) (.someE (.varRef ⟨2, 8⟩ none))).2
      (lowerExpr (initialCtx [] []) (.someE (.varRef ⟨2, 8⟩ none))).1
      = some ⟨2, 8⟩ := by
  refine ⟨fun p hp => absurd hp (by simp [initialCtx]), by decide, ?_⟩
  exact (range_for_expr_spec 10 (initialCtx [] []) (.varRef ⟨2, 8⟩ none)
    (fun p hp => absurd hp (by simp [initialCtx])) (by decide)).1

end Capy
